import Mathlib

/-!
Verification of the WaterSortScreenshotSolver core.

The embedding below translates the color reconciler, the fixed-grid
normalizer and the solve driver from the repository's sources (the vision
worker embedded in `src/README.md`, and `src/main.js`).  JavaScript numbers
are modelled as exact rationals (`ℚ`); double literals such as `0.45` or
`1.2` are read as the exact decimals they denote.  Machine square roots are
avoided: whenever the source compares a Euclidean distance
`Math.sqrt(q)` against a threshold `t`, the embedding compares the squared
distance `q` against `t^2` together with `0 ≤ t`, which is exactly
equivalent because `sqrt` is strictly monotone on nonnegative inputs.
JavaScript values probed with `typeof x === 'number'` are modelled as
`Option`s (`none` = not a number).  Arrays are lists, and objects with
integer keys (`clusterInfo`) are association lists whose key order mirrors
the ascending integer-key enumeration order of JavaScript objects.
-/

/-- Squared Euclidean distance between two 3-component color triples.
The source's `dist`/`labDist3` compute `Math.sqrt(dx*dx+dy*dy+dz*dz)`; the
embedding keeps the square and compares against squared thresholds. -/
def sqDist3 (a b : ℚ × ℚ × ℚ) : ℚ :=
  (a.1 - b.1) ^ 2 + (a.2.1 - b.2.1) ^ 2 + (a.2.2 - b.2.2) ^ 2

/-- `Math.sqrt d ≤ t` for `d = sqDist3 …`, expressed without square roots:
`sqrt d ≤ t ↔ 0 ≤ t ∧ d ≤ t^2` (both sides of a comparison of nonnegative
numbers may be squared). -/
def sqrtLe (d t : ℚ) : Prop := 0 ≤ t ∧ d ≤ t ^ 2

instance (d t : ℚ) : Decidable (sqrtLe d t) := by unfold sqrtLe; infer_instance

/-- One raw per-slot color sample.  The worker stores the BGR median and
converts it to Lab through OpenCV (`cv.cvtColor`, an external color-model
utility per the spec); the embedding therefore carries both triples as
input. -/
structure SampleC where
  bgr : ℚ × ℚ × ℚ
  lab : ℚ × ℚ × ℚ

instance : Inhabited SampleC := ⟨⟨(0, 0, 0), (0, 0, 0)⟩⟩

/-- One record of the worker's `clusterInfo` object.  `center_hex` is a
string rendering of `center_bgr` (`bgrToHex`) and carries no extra data, so
it is omitted from the model.  The `id` field always equals the record's
key and is carried by the association-list key instead. -/
structure ClusterC where
  count : ℕ
  center_bgr : ℚ × ℚ × ℚ
  center_lab : ℚ × ℚ × ℚ

/-- Inner `for (j = 0; j < n; j++)` loop of the worker's DBSCAN flood fill:
every still-unlabeled sample within `eps` of sample `p` is labeled `cid` and
collected for the queue (in ascending `j` order, the source's push order). -/
def scanIdx (labs : List (ℚ × ℚ × ℚ)) (eps : ℚ) (cid : ℕ) (p : ℕ) :
    List ℕ → List Int → List Int × List ℕ
  | [], labels => (labels, [])
  | j :: rest, labels =>
    if labels.getD j (-1) ≠ -1 then scanIdx labs eps cid p rest labels
    else if sqrtLe (sqDist3 (labs.getD p (0, 0, 0)) (labs.getD j (0, 0, 0))) eps then
      let labels₁ := labels.set j (cid : Int)
      let r := scanIdx labs eps cid p rest labels₁
      (r.1, j :: r.2)
    else scanIdx labs eps cid p rest labels

/-- The worker's `while (queue.length)` flood-fill loop.  The source pops
the most recently pushed index (`queue.pop()` on a JS array); the model
keeps the queue head-first, so the freshly labeled indices (ascending) are
pushed reversed.  `fuel` merely bounds the recursion: `2*n + 1` always
suffices because each round pops one entry and each pushed index
permanently turns a `-1` label into `cid` (see `floodLoop_measure`). -/
def floodLoop (labs : List (ℚ × ℚ × ℚ)) (eps : ℚ) (cid : ℕ) :
    ℕ → List Int → List ℕ → List Int
  | 0, labels, _ => labels
  | _ + 1, labels, [] => labels
  | fuel + 1, labels, p :: queue =>
    let r := scanIdx labs eps cid p (List.range labs.length) labels
    floodLoop labs eps cid fuel r.1 (r.2.reverse ++ queue)

/-- Outer `for (i = 0; i < n; i++)` DBSCAN loop (minPts = 1): seed a fresh
cluster id at each yet-unlabeled sample and flood-fill its ε-connected
component.  Returns the final label array and the cluster count `cid`. -/
def assignLabels (labs : List (ℚ × ℚ × ℚ)) (eps : ℚ) :
    List ℕ → ℕ → List Int → List Int × ℕ
  | [], cid, labels => (labels, cid)
  | i :: rest, cid, labels =>
    if labels.getD i (-1) ≠ -1 then assignLabels labs eps rest cid labels
    else
      assignLabels labs eps rest (cid + 1)
        (floodLoop labs eps cid (2 * labs.length + 1) (labels.set i (cid : Int)) [i])

/-- Componentwise sum of color triples, accumulated left-to-right like the
worker's `sb += b; sg += g; sr += r` loops. -/
def sumT (l : List (ℚ × ℚ × ℚ)) : ℚ × ℚ × ℚ :=
  l.foldl (fun s a => (s.1 + a.1, s.2.1 + a.2.1, s.2.2 + a.2.2)) (0, 0, 0)

/-- Build `clusterInfo` for `k = 0 .. cid-1`: member indices in ascending
order, member count, and per-channel arithmetic-mean centroids in BGR and
Lab. -/
def buildClusterInfo (samples : List SampleC) (labels : List Int) (cid : ℕ) :
    List (Int × ClusterC) :=
  (List.range cid).map fun k =>
    let idxs := (List.range samples.length).filter fun i => labels.getD i (-1) = Int.ofNat k
    let count := idxs.length
    let sb := sumT (idxs.map fun i => (samples.getD i default).bgr)
    let sl := sumT (idxs.map fun i => (samples.getD i default).lab)
    (Int.ofNat k,
      { count := count
        center_bgr := (sb.1 / count, sb.2.1 / count, sb.2.2 / count)
        center_lab := (sl.1 / count, sl.2.1 / count, sl.2.2 / count) })

/-- Result of `clusterColorsDbscan`: per-sample labels and the provisional
cluster map. -/
structure DbscanResult where
  labels : List Int
  clusterInfo : List (Int × ClusterC)

/-- `clusterColorsDbscan(cv, samplesBgr, eps)` from the worker: DBSCAN with
minPts = 1 (i.e. ε-connected components of the Lab samples) followed by the
per-cluster centroid computation.  The BGR→Lab conversion is performed by
OpenCV in the source and is external here; each sample carries its Lab
triple. -/
def clusterColorsDbscan (samples : List SampleC) (eps : ℚ) : DbscanResult :=
  if samples.length = 0 then ⟨[], []⟩
  else
    let labs := samples.map (·.lab)
    let r := assignLabels labs eps (List.range samples.length) 0
      (List.replicate samples.length (-1))
    ⟨r.1, buildClusterInfo samples r.1 r.2⟩

/-- One entry of the reconciler's `merges` log: the surviving id, the
absorbed id, and the (squared) centroid distance of the merged pair. -/
structure MergeRec where
  keep : Int
  drop : Int
  dSq : ℚ

/-- `Object.keys(clusterInfo).map(parseInt).sort((a,b) => a-b)`: the live
cluster ids in ascending order.  (JS enumerates integer-like keys ascending
already; the source sorts explicitly, modelled by a stable sort.) -/
def sortedKeys (m : List (Int × ClusterC)) : List Int :=
  List.insertionSort (· ≤ ·) (m.map Prod.fst)

/-- All ordered index pairs `(ids[i], ids[j])` with `i < j`, in the nested
iteration order of the reconciler's best-pair search. -/
def pairsOf : List Int → List (Int × Int)
  | [] => []
  | a :: rest => (rest.map fun b => (a, b)) ++ pairsOf rest

/-- One candidate step of the best-pair search: skip the pair if either id
is dead, if the combined member count exceeds `capacity`, or if the
centroid distance exceeds the merge ceiling; otherwise keep it when it is
nearer than the best so far (strict `<`: the first minimum wins ties). -/
def considerPair (cap : Int) (maxDistSq : ℚ) (m : List (Int × ClusterC))
    (best : Option MergeRec) (p : Int × Int) : Option MergeRec :=
  match List.lookup p.1 m, List.lookup p.2 m with
  | some a, some b =>
    if (a.count : Int) + b.count > cap then best
    else
      let dS := sqDist3 a.center_lab b.center_lab
      if maxDistSq < dS then best
      else
        match best with
        | none => some ⟨min p.1 p.2, max p.1 p.2, dS⟩
        | some bb => if dS < bb.dSq then some ⟨min p.1 p.2, max p.1 p.2, dS⟩ else some bb
  | _, _ => best

/-- The nested `for i / for j` search for the nearest eligible pair of live
clusters. -/
def findBest (cap : Int) (maxDistSq : ℚ) (m : List (Int × ClusterC)) : Option MergeRec :=
  (pairsOf (sortedKeys m)).foldl (considerPair cap maxDistSq m) none

/-- The merged record `mergeInto` writes over the surviving id: pooled
member count and member-count-weighted centroid means (BGR and Lab). -/
def poolClusters (a b : ClusterC) : ClusterC :=
  let tot : ℚ := (a.count : ℚ) + (b.count : ℚ)
  let wA : ℚ := (a.count : ℚ) / tot
  let wB : ℚ := (b.count : ℚ) / tot
  { count := a.count + b.count
    center_bgr := (a.center_bgr.1 * wA + b.center_bgr.1 * wB,
                   a.center_bgr.2.1 * wA + b.center_bgr.2.1 * wB,
                   a.center_bgr.2.2 * wA + b.center_bgr.2.2 * wB)
    center_lab := (a.center_lab.1 * wA + b.center_lab.1 * wB,
                   a.center_lab.2.1 * wA + b.center_lab.2.1 * wB,
                   a.center_lab.2.2 * wA + b.center_lab.2.2 * wB) }

/-- `mergeInto(keepId, dropId)` from the reconciler: rewrite every `dropId`
label to `keepId`, then—provided both records are live, mirroring the
source's `if (!a || !b) return` guard—store the pooled record under
`keepId` and delete `dropId`.  The source mutates `clusterInfo` in place;
the embedding threads the map's contents explicitly. -/
def mergeInto (labels : List Int) (m : List (Int × ClusterC)) (keepId dropId : Int) :
    List Int × List (Int × ClusterC) :=
  let labels₁ := labels.map fun x => if x = dropId then keepId else x
  match List.lookup keepId m, List.lookup dropId m with
  | some a, some b =>
    let m₁ := m.map fun e => if e.1 = keepId then (keepId, poolClusters a b) else e
    (labels₁, m₁.filter fun e => e.1 ≠ dropId)
  | _, _ => (labels₁, m)

/-- The reconciler's `while (Object.keys(clusterInfo).length > expectedColors)`
loop: repeatedly merge the nearest eligible pair, recording it, and stop as
soon as no eligible pair remains.  `fuel` only bounds the recursion; the
source loop deletes one live id per iteration, so `m.length` rounds always
suffice when `0 ≤ expected` (see `mergeLoop_fuel_irrelevant`). -/
def mergeLoop (cap : Int) (maxDistSq : ℚ) (expected : Int) :
    ℕ → List Int × List (Int × ClusterC) × List MergeRec →
    List Int × List (Int × ClusterC) × List MergeRec
  | 0, st => st
  | fuel + 1, (labels, m, acc) =>
    if (m.length : Int) > expected then
      match findBest cap maxDistSq m with
      | none => (labels, m, acc)
      | some b =>
        let r := mergeInto labels m b.keep b.drop
        mergeLoop cap maxDistSq expected fuel (r.1, r.2, acc ++ [b])
    else (labels, m, acc)

/-- Result record of `mergeClustersToExpectedCount`. -/
structure MergeResult where
  labels : List Int
  clusterInfo : List (Int × ClusterC)
  merges : List MergeRec
  expectedColors : Option Int

/-- `mergeClustersToExpectedCount(labelsIn, clusterInfoIn, capacity, dbscanEps)`
from the worker.  `capacity`/`dbscanEps` are JS values checked with
`typeof === 'number'`, modelled as `Option`s; the worker only ever passes
integer capacities, so `capacity` carries `Int`.  `labelsIn.slice()` is a
copy, which under value semantics is the value itself.  The source updates
`clusterInfoIn` in place (its own comment: «mutate in place»); the
embedding threads the map and returns its final contents.  The merge
ceiling is `max(8.0, eps * 1.2)` (default eps 16.0), compared squared. -/
def mergeClustersToExpectedCount (labelsIn : List Int) (clusterInfoIn : List (Int × ClusterC))
    (capacity : Option Int) (dbscanEps : Option ℚ) : MergeResult :=
  let labels := labelsIn
  let nSamples := labels.length
  match capacity with
  | none => ⟨labels, clusterInfoIn, [], none⟩
  | some c =>
    if c ≤ 0 then ⟨labels, clusterInfoIn, [], none⟩
    else if nSamples = 0 then ⟨labels, clusterInfoIn, [], none⟩
    else if (nSamples : Int) % c ≠ 0 then ⟨labels, clusterInfoIn, [], none⟩
    else
      let expectedColors : Int := (nSamples : Int) / c
      let epsV : ℚ := match dbscanEps with | some e => e | none => 16
      let maxDist : ℚ := max 8 (epsV * (6 / 5))
      let r := mergeLoop c (maxDist ^ 2) expectedColors clusterInfoIn.length
        (labels, clusterInfoIn, [])
      ⟨r.1, r.2.1, r.2.2, some expectedColors⟩

/-- `const cap = (typeof capacity === 'number' && capacity > 0) ? capacity : 4;`
from the worker's `self.onmessage` handler: a missing or non-positive
capacity is silently replaced by the default 4 before analysis proceeds. -/
def onmessageCap (capacity : Option Int) : Int :=
  match capacity with
  | some c => if 0 < c then c else 4
  | none => 4

/-- Candidate bounding box with JS-number (rational) coordinates.  The
optional `area` field of the source's box objects is never read by the grid
normalizer (it always recomputes `b.w * b.h`), so it is omitted. -/
structure BoxQ where
  x : ℚ
  y : ℚ
  w : ℚ
  h : ℚ

instance : Inhabited BoxQ := ⟨⟨0, 0, 0, 0⟩⟩

/-- Integer-coordinate box, the element type of `enforceFixedBottleGrid`'s
result after its final `Math.round`/`clampInt` pass. -/
structure BoxI where
  x : Int
  y : Int
  w : Int
  h : Int
deriving DecidableEq

/-- `Math.round`: round half toward positive infinity. -/
def jsRound (q : ℚ) : Int := ⌊q + 1 / 2⌋

/-- `clamp(v, lo, hi) = Math.max(lo, Math.min(hi, v))` from the worker. -/
def clampQ (v lo hi : ℚ) : ℚ := max lo (min hi v)

/-- `clampInt(v, lo, hi) = Math.max(lo, Math.min(hi, v|0))`.  Every call
site in the grid normalizer passes a `Math.round`ed (hence integral)
value, on which `v|0` is the identity, so the model takes an `Int`. -/
def clampInt (v lo hi : Int) : Int := max lo (min hi v)

/-- `medianNumber(arr)` from the worker: 0 for an empty array, else the
middle element (odd length) or the mean of the two middle elements (even
length) of the ascending sort. -/
def medianNumber (arr : List ℚ) : ℚ :=
  if arr.length = 0 then 0
  else
    let a := List.insertionSort (· ≤ ·) arr
    let mid := arr.length / 2
    if arr.length % 2 = 1 then a.getD mid 0
    else (a.getD (mid - 1) 0 + a.getD mid 0) / 2

/-- `kmeans1D` initial centers: evenly spaced quantiles
`sorted[Math.floor((i + 0.5) / k * (n - 1))]` of the sorted values. -/
def kmeansInit (sorted : List ℚ) (k : ℕ) : List ℚ :=
  (List.range k).map fun i =>
    sorted.getD ((⌊((i : ℚ) + 1 / 2) / (k : ℚ) * ((sorted.length : ℚ) - 1)⌋).toNat) 0

/-- Index of the center nearest to `v` (`bestDist` starts at `Infinity`;
strict `<` keeps the first minimum on ties). -/
def nearestIdx (centers : List ℚ) (v : ℚ) : ℕ :=
  (centers.foldl
    (fun (st : ℕ × ℕ × Option ℚ) c =>
      let d := |v - c|
      match st.2.2 with
      | none => (st.1 + 1, st.1, some d)
      | some bd => if d < bd then (st.1 + 1, st.1, some d) else (st.1 + 1, st.2.1, some bd))
    (0, 0, none)).2.1

/-- One Lloyd iteration of `kmeans1D`: group every value with its nearest
center, then move each center to its group's mean (keeping it when the
group is empty). -/
def kmeansStep (values : List ℚ) (centers : List ℚ) : List ℚ :=
  (List.range centers.length).map fun i =>
    let g := values.filter fun v => nearestIdx centers v = i
    if g.length = 0 then centers.getD i 0 else g.sum / (g.length : ℚ)

/-- The fixed-count Lloyd iteration loop of `kmeans1D`. -/
def kmeansIter (values : List ℚ) : ℕ → List ℚ → List ℚ
  | 0, centers => centers
  | t + 1, centers => kmeansIter values t (kmeansStep values centers)

/-- `kmeans1D(values, k, iters)` from the worker: quantile initialization
on the sorted values, `iters` Lloyd iterations, centers returned sorted
ascending. -/
def kmeans1D (values : List ℚ) (k : ℕ) (iters : ℕ) : List ℚ :=
  List.insertionSort (· ≤ ·)
    (kmeansIter values iters (kmeansInit (List.insertionSort (· ≤ ·) values) k))

/-- First filter of `enforceFixedBottleGrid`: drop candidates whose center
lies outside the permissive central region, unless that would drop them
all. -/
def gridFilterPos (W H : ℚ) (boxes : List BoxQ) : List BoxQ :=
  let filtered := boxes.filter fun b =>
    let cx := b.x + b.w / 2
    let cy := b.y + b.h / 2
    decide (W * (20 / 100) ≤ cx ∧ cx ≤ W * (80 / 100) ∧
      H * (14 / 100) ≤ cy ∧ cy ≤ H * (85 / 100))
  if filtered.length ≠ 0 then filtered else boxes

/-- Second filter of `enforceFixedBottleGrid` (only when more than 6
candidates survive): keep the boxes whose area lies within
`[0.45, 2.25] ×` the median area provided at least 3 remain, then sort by
descending area and cap the list at 12. -/
def gridFilterArea (boxes : List BoxQ) : List BoxQ :=
  if 6 < boxes.length then
    let medA := medianNumber (boxes.map fun b => b.w * b.h)
    let byArea := boxes.filter fun b =>
      decide (medA * (45 / 100) ≤ b.w * b.h ∧ b.w * b.h ≤ medA * (225 / 100))
    let boxes₁ := if 3 ≤ byArea.length then byArea else boxes
    let boxes₂ := List.insertionSort (fun a b => b.w * b.h ≤ a.w * a.h) boxes₁
    if 12 < boxes₂.length then boxes₂.take 12 else boxes₂
  else boxes

/-- The candidate list the grid inference works on. -/
def gridBoxes (W H : ℚ) (candidates : List BoxQ) : List BoxQ :=
  gridFilterArea (gridFilterPos W H candidates)

/-- Median candidate width, with the region-relative default `0.11 * W`. -/
def gridWMed (W H : ℚ) (candidates : List BoxQ) : ℚ :=
  let boxes := gridBoxes W H candidates
  if boxes.length ≠ 0 then medianNumber (boxes.map (·.w)) else W * (11 / 100)

/-- Median candidate height, with the region-relative default `0.32 * H`. -/
def gridHMed (W H : ℚ) (candidates : List BoxQ) : ℚ :=
  let boxes := gridBoxes W H candidates
  if boxes.length ≠ 0 then medianNumber (boxes.map (·.h)) else H * (32 / 100)

/-- Consecutive differences `sx[i] - sx[i-1]` of a list. -/
def adjDiffs : List ℚ → List ℚ
  | a :: b :: rest => (b - a) :: adjDiffs (b :: rest)
  | _ => []

/-- Column-spacing estimate `dx`: median of the sorted x-center gaps that
are at least `0.6 * wMed`, defaulting to `1.6 * wMed`. -/
def gridDx (W H : ℚ) (candidates : List BoxQ) : ℚ :=
  let wMed := gridWMed W H candidates
  let xs := (gridBoxes W H candidates).map fun b => b.x + b.w / 2
  let dx0 := wMed * (160 / 100)
  if 2 ≤ xs.length then
    let diffs := (adjDiffs (List.insertionSort (· ≤ ·) xs)).filter fun d =>
      decide (wMed * (60 / 100) ≤ d)
    if diffs.length ≠ 0 then medianNumber diffs else dx0
  else dx0

/-- Row-spacing estimate `dy`: the 2-means separation of the y-centers if
it is at least `0.8 * hMed`, else `max(1.25 * hMed, 0.25 * H)`. -/
def gridDy (W H : ℚ) (candidates : List BoxQ) : ℚ :=
  let hMed := gridHMed W H candidates
  let ys := (gridBoxes W H candidates).map fun b => b.y + b.h / 2
  let dyBase := max (hMed * (125 / 100)) (H * (25 / 100))
  if 2 ≤ ys.length then
    let centers := kmeans1D ys 2 8
    let sep := |centers.getD 1 0 - centers.getD 0 0|
    if hMed * (80 / 100) ≤ sep then sep else dyBase
  else dyBase

/-- The three column centers before clamping (3-means, 2-candidate
extrapolation/adjacency, 1-candidate side placement, or region-relative
fixed fractions). -/
def gridXCenters₀ (W H : ℚ) (candidates : List BoxQ) : List ℚ :=
  let wMed := gridWMed W H candidates
  let xs := (gridBoxes W H candidates).map fun b => b.x + b.w / 2
  let dx := gridDx W H candidates
  if 3 ≤ xs.length then kmeans1D xs 3 10
  else if xs.length = 2 then
    let sx := List.insertionSort (· ≤ ·) xs
    let x1 := sx.getD 0 0
    let x2 := sx.getD 1 0
    let diff := x2 - x1
    if dx * (160 / 100) < diff then
      let step := diff / 2
      [x1, x1 + step, x1 + 2 * step]
    else if x1 < W / 2 then [x1, x2, x2 + diff]
    else [x1 - diff, x1, x2]
  else if xs.length = 1 then
    let x := xs.getD 0 0
    if x < W * (45 / 100) then [x, x + dx, x + 2 * dx]
    else if W * (55 / 100) < x then [x - 2 * dx, x - dx, x]
    else [x - dx, x, x + dx]
  else
    let _ := wMed
    [W * (38 / 100), W * (50 / 100), W * (62 / 100)]

/-- Column centers: clamped to `[0.6 * wMed, W - 0.6 * wMed]` and sorted
ascending. -/
def gridXCenters (W H : ℚ) (candidates : List BoxQ) : List ℚ :=
  let wMed := gridWMed W H candidates
  List.insertionSort (· ≤ ·)
    ((gridXCenters₀ W H candidates).map fun v => clampQ v (wMed * (60 / 100)) (W - wMed * (60 / 100)))

/-- The two row centers before clamping (2-means with single-row
inference, 1-candidate row placement, or region-relative fractions). -/
def gridYCenters₀ (W H : ℚ) (candidates : List BoxQ) : List ℚ :=
  let hMed := gridHMed W H candidates
  let ys := (gridBoxes W H candidates).map fun b => b.y + b.h / 2
  let dy := gridDy W H candidates
  if 2 ≤ ys.length then
    let centers := kmeans1D ys 2 10
    let sep := |centers.getD 1 0 - centers.getD 0 0|
    if sep < hMed * (80 / 100) then
      let y0 := centers.getD 0 0
      if y0 < H / 2 then [y0, y0 + dy] else [y0 - dy, y0]
    else centers
  else if ys.length = 1 then
    let y := ys.getD 0 0
    if y < H / 2 then [y, y + dy] else [y - dy, y]
  else [H * (33 / 100), H * (65 / 100)]

/-- Row centers: clamped to `[0.6 * hMed, H - 0.6 * hMed]` and sorted
ascending. -/
def gridYCenters (W H : ℚ) (candidates : List BoxQ) : List ℚ :=
  let hMed := gridHMed W H candidates
  List.insertionSort (· ≤ ·)
    ((gridYCenters₀ W H candidates).map fun v => clampQ v (hMed * (60 / 100)) (H - hMed * (60 / 100)))

/-- The six predicted cell centers in row-major order (`for r { for c }`):
prediction `pi` is column `pi % 3` and row `pi / 3`. -/
def gridPreds (W H : ℚ) (candidates : List BoxQ) : List (ℚ × ℚ) :=
  (List.range 6).map fun pi =>
    ((gridXCenters W H candidates).getD (pi % 3) 0, (gridYCenters W H candidates).getD (pi / 3) 0)

/-- Candidate/prediction pairs within the assignment distance cap
`1.25 * max(wMed, hMed)` (squared comparison), as `(dist², bi, pi)`. -/
def gridPairs (W H : ℚ) (candidates : List BoxQ) : List (ℚ × ℕ × ℕ) :=
  let boxes := gridBoxes W H candidates
  let wMed := gridWMed W H candidates
  let hMed := gridHMed W H candidates
  let preds := gridPreds W H candidates
  (List.range boxes.length).flatMap fun bi =>
    let b := boxes.getD bi default
    let bcX := b.x + b.w / 2
    let bcY := b.y + b.h / 2
    (List.range 6).filterMap fun pi =>
      let p := preds.getD pi (0, 0)
      let dSq := (bcX - p.1) ^ 2 + (bcY - p.2) ^ 2
      if sqrtLe dSq (max wMed hMed * (125 / 100)) then some (dSq, bi, pi) else none

/-- Greedy nearest-first assignment: process the pairs in ascending
distance order (stable sort, like JS `sort`), skipping pairs whose
prediction is already filled or whose candidate is already used. -/
def gridAssign (W H : ℚ) (candidates : List BoxQ) : List (Option BoxQ) :=
  let boxes := gridBoxes W H candidates
  ((List.insertionSort (fun a b => a.1 ≤ b.1) (gridPairs W H candidates)).foldl
    (fun (st : List (Option BoxQ) × List ℕ) pr =>
      if (st.1.getD pr.2.2 none).isSome then st
      else if pr.2.1 ∈ st.2 then st
      else (st.1.set pr.2.2 (some (boxes.getD pr.2.1 default)), pr.2.1 :: st.2))
    (List.replicate 6 none, [])).1

/-- After the greedy pass, each still-empty prediction asks the local
re-detection callback (`detectBottleNear` in the source, which works on
pixels through OpenCV and is the external `probe` collaborator here). -/
def gridProbed (W H : ℚ) (candidates : List BoxQ)
    (probe : ℚ → ℚ → ℚ → ℚ → Option BoxQ) : List (Option BoxQ) :=
  let preds := gridPreds W H candidates
  let wMed := gridWMed W H candidates
  let hMed := gridHMed W H candidates
  (List.range 6).map fun pi =>
    match (gridAssign W H candidates).getD pi none with
    | some b => some b
    | none => probe (preds.getD pi (0, 0)).1 (preds.getD pi (0, 0)).2 wMed hMed

/-- The synthetic fallback box for prediction `pi`: a median-sized box
centered at the predicted cell, clamped to the image. -/
def syntheticBoxAt (Wi Hi : Int) (wMed hMed : ℚ) (p : ℚ × ℚ) : BoxQ :=
  { x := (clampInt (jsRound (p.1 - wMed / 2)) 0 (Wi - 1) : Int)
    y := (clampInt (jsRound (p.2 - hMed / 2)) 0 (Hi - 1) : Int)
    w := (clampInt (jsRound wMed) 1 Wi : Int)
    h := (clampInt (jsRound hMed) 1 Hi : Int) }

/-- The final per-box pass of `enforceFixedBottleGrid`: round to integers
and clamp into the image. -/
def finalClampBox (Wi Hi : Int) (b : BoxQ) : BoxI :=
  { x := clampInt (jsRound b.x) 0 (Wi - 1)
    y := clampInt (jsRound b.y) 0 (Hi - 1)
    w := clampInt (jsRound b.w) 1 Wi
    h := clampInt (jsRound b.h) 1 Hi }

/-- `enforceFixedBottleGrid(cv, bgr, candidates)` from the worker, for the
fixed 2-row × 3-column layout (`EXPECTED = 6`).  `Wi`/`Hi` are the image
width and height (`bgr.cols`/`bgr.rows`); `probe` is the external local
re-detection callback (`detectBottleNear`).  Every prediction is served,
in row-major order, by its greedily assigned candidate, else by the probe,
else by a synthetic median-sized box; the result is rounded and clamped. -/
def enforceFixedBottleGrid (Wi Hi : Int) (candidates : List BoxQ)
    (probe : ℚ → ℚ → ℚ → ℚ → Option BoxQ) : List BoxI :=
  let W : ℚ := (Wi : ℚ)
  let H : ℚ := (Hi : ℚ)
  let preds := gridPreds W H candidates
  let wMed := gridWMed W H candidates
  let hMed := gridHMed W H candidates
  ((List.range 6).map fun pi =>
    match (gridProbed W H candidates probe).getD pi none with
    | some b => b
    | none => syntheticBoxAt Wi Hi wMed hMed (preds.getD pi (0, 0))).map
    (finalClampBox Wi Hi)

/-- The member-count-weighted mean of two centroids (weights
`ca/(ca+cb)` and `cb/(ca+cb)`), as the claim states the merged centroid. -/
def wmean3 (u v : ℚ × ℚ × ℚ) (ca cb : ℕ) : ℚ × ℚ × ℚ :=
  let tot : ℚ := (ca : ℚ) + (cb : ℚ)
  (u.1 * ((ca : ℚ) / tot) + v.1 * ((cb : ℚ) / tot),
   u.2.1 * ((ca : ℚ) / tot) + v.2.1 * ((cb : ℚ) / tot),
   u.2.2 * ((ca : ℚ) / tot) + v.2.2 * ((cb : ℚ) / tot))

/-- Specification-side eligibility of an unordered pair of live clusters:
two distinct live ids whose combined member count does not exceed the
capacity and whose Lab-centroid distance is at most the merge ceiling
(squared comparison against `maxDistSq = maxDist^2`). -/
def EligiblePair (cap : Int) (maxDistSq : ℚ) (m : List (Int × ClusterC)) (i j : Int) : Prop :=
  i ≠ j ∧ ∃ a b, List.lookup i m = some a ∧ List.lookup j m = some b ∧
    (a.count : Int) + b.count ≤ cap ∧ sqDist3 a.center_lab b.center_lab ≤ maxDistSq

/-- Squared Lab-centroid distance of a pair of live ids (0 if either is
dead). -/
def pairDSq (m : List (Int × ClusterC)) (i j : Int) : ℚ :=
  match List.lookup i m, List.lookup j m with
  | some a, some b => sqDist3 a.center_lab b.center_lab
  | _, _ => 0

/-- Specification-side description of one merge's effect, in the claim's
words: every `dropId` label is rewritten to `keep`, the surviving id holds
the pooled member count and the member-count-weighted mean of the two
centroids, the absorbed id is dropped, and all other clusters are
untouched. -/
def SpecMergeEffect (l : List Int) (m : List (Int × ClusterC)) (keep dropId : Int)
    (l' : List Int) (m' : List (Int × ClusterC)) : Prop :=
  l' = l.map (fun x => if x = dropId then keep else x) ∧
  (∃ a b c, List.lookup keep m = some a ∧ List.lookup dropId m = some b ∧
    List.lookup keep m' = some c ∧
    c.count = a.count + b.count ∧
    c.center_lab = wmean3 a.center_lab b.center_lab a.count b.count ∧
    c.center_bgr = wmean3 a.center_bgr b.center_bgr a.count b.count) ∧
  List.lookup dropId m' = none ∧
  (∀ k, k ≠ keep → k ≠ dropId → List.lookup k m' = List.lookup k m) ∧
  m'.length + 1 = m.length

/-- Specification-side transcript of the reconciler's merge phase: while
the live cluster count exceeds `expected`, merge exactly a minimal-distance
eligible pair (keeping the smaller id) and record it; stop as soon as the
expected count is reached or no eligible pair remains. -/
inductive MergeChain (cap : Int) (maxDistSq : ℚ) (expected : Int) :
    List Int × List (Int × ClusterC) → List Int × List (Int × ClusterC) →
    List MergeRec → Prop
  | stop_reached {l : List Int} {m : List (Int × ClusterC)} :
      (m.length : Int) ≤ expected → MergeChain cap maxDistSq expected (l, m) (l, m) []
  | stop_stuck {l : List Int} {m : List (Int × ClusterC)} :
      (m.length : Int) > expected →
      (∀ i j, ¬ EligiblePair cap maxDistSq m i j) →
      MergeChain cap maxDistSq expected (l, m) (l, m) []
  | step {l l' : List Int} {m m' : List (Int × ClusterC)}
      {fin : List Int × List (Int × ClusterC)} {ms : List MergeRec} {r : MergeRec} :
      (m.length : Int) > expected →
      EligiblePair cap maxDistSq m r.keep r.drop →
      r.keep < r.drop →
      r.dSq = pairDSq m r.keep r.drop →
      (∀ i j, EligiblePair cap maxDistSq m i j → r.dSq ≤ pairDSq m i j) →
      SpecMergeEffect l m r.keep r.drop l' m' →
      MergeChain cap maxDistSq expected (l', m') fin ms →
      MergeChain cap maxDistSq expected (l, m) fin (r :: ms)

/-- ε-adjacency of two sample indices: both in range and within `eps` in
Lab space. -/
def epsEdge (labs : List (ℚ × ℚ × ℚ)) (eps : ℚ) (i j : ℕ) : Prop :=
  i < labs.length ∧ j < labs.length ∧
    sqrtLe (sqDist3 (labs.getD i (0, 0, 0)) (labs.getD j (0, 0, 0))) eps

/-- Single-link ε-chain connectivity of two sample indices (the reflexive
transitive closure of ε-adjacency). -/
def LabConn (samples : List SampleC) (eps : ℚ) (i j : ℕ) : Prop :=
  Relation.ReflTransGen (epsEdge (samples.map (·.lab)) eps) i j

/-- Modelled from the spec: the puzzle solver lives in `solver.js`, which
`src/main.js` imports (`solveBfs`, `applyMove`) but which is not under
`src/`; the definitions through `solveBfs` below follow spec §4.3.  A
board is the list of container stacks; a stack is modelled top-first
(head = top slot), each slot holding a color id.  `topRun c s` is the
length of the contiguous run of color `c` at the top of `s`. -/
def topRun (c : ℕ) : List ℕ → ℕ
  | [] => 0
  | x :: xs => if x = c then topRun c xs + 1 else 0

/-- A pour move: source, destination, the color poured and how many units
(spec §4.3, `Move = (source index, destination index, color token, amount)`). -/
structure MoveT where
  src : ℕ
  dst : ℕ
  color : ℕ
  amount : ℕ
deriving DecidableEq

/-- Modelled from the spec (§4.3 move generation): a pour from `s` to `d`
is legal iff `s ≠ d`, `s` is not blocked, `s` is non-empty, `d` has free
capacity and is empty or matches `s`'s top color; the amount is
`min(runLength, capacity - len(d))`. -/
def legalPour (cap : ℕ) (blocked : List ℕ) (b : List (List ℕ)) (s d : ℕ) : Option MoveT :=
  if s = d then none
  else if s ∈ blocked then none
  else
    match b.getD s [] with
    | [] => none
    | c :: _ =>
      let dstS := b.getD d []
      if dstS.length < cap ∧ (dstS = [] ∨ dstS.head? = some c) then
        some ⟨s, d, c, min (topRun c (b.getD s [])) (cap - dstS.length)⟩
      else none

/-- Modelled from the spec: applying a move pops `amount` units off the
source's top and pushes them onto the destination's top. -/
def applyMove (b : List (List ℕ)) (m : MoveT) : List (List ℕ) :=
  (b.set m.src ((b.getD m.src []).drop m.amount)).set m.dst
    (List.replicate m.amount m.color ++ b.getD m.dst [])

/-- Modelled from the spec: all legal moves of a state, in the documented
deterministic order (ascending source, then ascending destination). -/
def legalMoves (cap : ℕ) (blocked : List ℕ) (b : List (List ℕ)) : List MoveT :=
  (List.range b.length).flatMap fun s =>
    (List.range b.length).filterMap fun d => legalPour cap blocked b s d

/-- A stack is monochrome: its filled portion holds a single color. -/
def monoStack : List ℕ → Bool
  | [] => true
  | c :: rest => rest.all (· = c)

/-- The "mono" goal predicate: no container mixes two colors. -/
def isGoal (b : List (List ℕ)) : Bool := b.all monoStack

/-- A breadth-first search node: a reached board and the move path from
the root (predecessor links flattened into the path). -/
structure BfsNode where
  board : List (List ℕ)
  path : List MoveT

/-- Expand one node into all legal successors. -/
def expandNode (cap : ℕ) (blocked : List ℕ) (nd : BfsNode) : List BfsNode :=
  (legalMoves cap blocked nd.board).map fun m => ⟨applyMove nd.board m, nd.path ++ [m]⟩

/-- Keep only nodes whose canonical board value has not been visited,
deduplicating within the batch as well (value comparison of all stacks,
per spec §4.3's canonical-encoding requirement). -/
def pruneNew (visited : List (List (List ℕ))) : List BfsNode → List BfsNode
  | [] => []
  | nd :: rest =>
    if nd.board ∈ visited then pruneNew visited rest
    else nd :: pruneNew (nd.board :: visited) rest

/-- Modelled from the spec: breadth-first search by levels.  Each level is
first checked for a goal state (the first hit, in the deterministic node
order, terminates the search with its path); otherwise the whole level is
expanded, visited boards are pruned, and the search proceeds one level
deeper.  `maxStates` bounds the work (here: the number of levels, each
level being expanded atomically); exhausting it or the queue reports
failure. -/
def bfsLoop (cap : ℕ) (blocked : List ℕ) :
    ℕ → List BfsNode → List (List (List ℕ)) → Option (List MoveT)
  | _, [], _ => none
  | 0, _ :: _, _ => none
  | fuel + 1, frontier, visited =>
    match frontier.find? (fun nd => isGoal nd.board) with
    | some nd => some nd.path
    | none =>
      let fresh := pruneNew visited (frontier.flatMap (expandNode cap blocked))
      bfsLoop cap blocked fuel fresh (visited ++ fresh.map (·.board))

/-- Solver result: whether a goal was reached, and the move path (empty on
failure). -/
structure SolveInfo where
  solved : Bool
  moves : List MoveT
deriving DecidableEq

/-- Modelled from the spec: `solveBfs(init, cap, rockSet, opts)` — BFS
from the initial board with visited-set deduplication. -/
def solveBfs (init : List (List ℕ)) (cap : ℕ) (blocked : List ℕ) (maxStates : ℕ) : SolveInfo :=
  match bfsLoop cap blocked maxStates [⟨init, []⟩] [init] with
  | some p => ⟨true, p⟩
  | none => ⟨false, []⟩

/-- Run a move sequence from a board, failing if any move is not legal in
its state (specification-side semantics of a legal move sequence). -/
def runMoves (cap : ℕ) (blocked : List ℕ) : List (List ℕ) → List MoveT → Option (List (List ℕ))
  | b, [] => some b
  | b, m :: ms =>
    if m ∈ legalMoves cap blocked b then runMoves cap blocked (applyMove b m) ms else none

/-- `ms` is a legal move sequence from `init` that ends in a goal state. -/
@[reducible] def SolvesIn (cap : ℕ) (blocked : List ℕ) (init : List (List ℕ)) (ms : List MoveT) : Prop :=
  ∃ b, runMoves cap blocked init ms = some b ∧ isGoal b = true

/-- `addExtraEmptyBottles(stacks, extra)` from `src/main.js`: copy every
stack and append `extra` empty bottles. -/
def addExtraEmptyBottles (base : List (List ℕ)) (extra : ℕ) : List (List ℕ) :=
  base ++ List.replicate extra []

/-- One attempt chosen by the solve driver: the solver result, the number
of extra bottles used (`info.extraUsed = e` in the source) and the initial
board of that attempt. -/
structure DriverChoice where
  info : SolveInfo
  extraUsed : ℕ
  initial : List (List ℕ)

/-- The retry loop of `solveAndRender` (`src/main.js`): try
`e = 0, 1, …, allowedExtra` extra empty bottles in increasing order,
keep the first solved attempt, otherwise the last attempt.  The solver
call (`solveBfs` with the fixed capacity, rock set and options) is
abstracted as `solve`; `remaining = allowedExtra - e` counts the attempts
left. -/
def solveSweep (solve : List (List ℕ) → SolveInfo) (base : List (List ℕ)) :
    ℕ → ℕ → DriverChoice
  | e, remaining =>
    let init := addExtraEmptyBottles base e
    let info := solve init
    if info.solved then ⟨info, e, init⟩
    else
      match remaining with
      | 0 => ⟨info, e, init⟩
      | r + 1 => solveSweep solve base (e + 1) r

/-- The whole driver sweep, starting at zero extra bottles. -/
def solveAndRenderCore (solve : List (List ℕ) → SolveInfo) (base : List (List ℕ))
    (allowedExtra : ℕ) : DriverChoice :=
  solveSweep solve base 0 allowedExtra

/-- Total member count over a cluster map. -/
def sumCounts (m : List (Int × ClusterC)) : ℕ := (m.map fun e => e.2.count).sum

/-- The member indices of provisional cluster `k`: the sample indices
labeled `k`. -/
def membersOf (n : ℕ) (labels : List Int) (k : Int) : List ℕ :=
  (List.range n).filter fun i => labels.getD i (-1) = k

/-- Componentwise arithmetic mean of a list of color triples. -/
def meanT (l : List (ℚ × ℚ × ℚ)) : ℚ × ℚ × ℚ :=
  ((sumT l).1 / (l.length : ℚ), (sumT l).2.1 / (l.length : ℚ), (sumT l).2.2 / (l.length : ℚ))

/-- `b` is reachable from `init` by some legal move sequence of length
exactly `k`. -/
@[reducible] def ReachableIn (cap : ℕ) (blocked : List ℕ) (init : List (List ℕ)) (k : ℕ)
    (b : List (List ℕ)) : Prop :=
  ∃ ms : List MoveT, ms.length = k ∧ runMoves cap blocked init ms = some b

/-! ## Theorems -/

/-- C6: if the sample count is zero, the capacity is not a positive number,
or the sample count is not divisible by the capacity, then
`mergeClustersToExpectedCount` returns the provisional labels and clusters
unchanged with an empty merge list and no expected-color count; and for
zero samples the whole reconciliation (clustering followed by merging)
returns an empty label list and an empty palette. -/
theorem mergeClustersToExpectedCount_skip
    (labelsIn : List Int) (clusterInfoIn : List (Int × ClusterC))
    (capacity : Option Int) (dbscanEps : Option ℚ)
    (h : labelsIn.length = 0 ∨ capacity = none ∨
      (∃ c, capacity = some c ∧ c ≤ 0) ∨
      (∃ c, capacity = some c ∧ 0 < c ∧ (labelsIn.length : Int) % c ≠ 0)) :
    mergeClustersToExpectedCount labelsIn clusterInfoIn capacity dbscanEps =
      ⟨labelsIn, clusterInfoIn, [], none⟩ ∧
    ∀ (cap' : Option Int) (eps eps' : ℚ),
      clusterColorsDbscan [] eps = ⟨[], []⟩ ∧
      mergeClustersToExpectedCount (clusterColorsDbscan [] eps).labels
        (clusterColorsDbscan [] eps).clusterInfo cap' (some eps') =
        ⟨[], [], [], none⟩ := by
  constructor
  · rcases h with h0 | hnone | ⟨c, hc, hle⟩ | ⟨c, hc, hpos, hmod⟩
    · cases capacity with
      | none => rfl
      | some c =>
        unfold mergeClustersToExpectedCount
        by_cases hcle : c ≤ 0
        · simp [hcle]
        · simp [hcle, h0]
    · subst hnone; rfl
    · subst hc
      unfold mergeClustersToExpectedCount
      simp [hle]
    · subst hc
      have hcle : ¬ c ≤ 0 := not_le.mpr hpos
      have h0 : labelsIn.length ≠ 0 := by
        intro h0
        apply hmod
        rw [h0]
        simp
      unfold mergeClustersToExpectedCount
      simp [hcle, h0, hmod]
  · intro cap' eps eps'
    refine ⟨rfl, ?_⟩
    cases cap' with
    | none => rfl
    | some c =>
      show mergeClustersToExpectedCount [] [] (some c) (some eps') = _
      unfold mergeClustersToExpectedCount
      by_cases hcle : c ≤ 0
      · simp [hcle]
      · simp [hcle]

/-- Witness for `mergeClustersToExpectedCount_skip` at a concrete
non-divisible input. -/
theorem mergeClustersToExpectedCount_skip_witness :
    mergeClustersToExpectedCount [0] [] (some 3) none = ⟨[0], [], [], none⟩ :=
  (mergeClustersToExpectedCount_skip [0] [] (some 3) none
    (Or.inr (Or.inr (Or.inr ⟨3, rfl, by decide, by decide⟩)))).1

/-- C8 counterexample: a non-positive capacity is not surfaced as an
error.  The worker's message handler coerces `capacity = 0` (and `-3`) to
the default 4 and proceeds, and the reconciler, handed a non-positive
capacity directly, returns a perfectly normal unchanged result instead of
failing. -/
theorem capacityNonpositive_not_rejected :
    onmessageCap (some 0) = 4 ∧ onmessageCap (some (-3)) = 4 ∧
    mergeClustersToExpectedCount [0, 0] [(0, ⟨2, (0, 0, 0), (0, 0, 0)⟩)] (some 0) none =
      ⟨[0, 0], [(0, ⟨2, (0, 0, 0), (0, 0, 0)⟩)], [], none⟩ :=
  ⟨rfl, rfl, rfl⟩

/-- C8 amended: an input with capacity ≤ 0 (or no numeric capacity at all)
is not rejected with an error; the worker's message handler silently
substitutes the default capacity 4, and `mergeClustersToExpectedCount`
returns its inputs unchanged with no expected-color count. -/
theorem capacityNonpositive_coerced (capacity : Option Int)
    (h : capacity = none ∨ ∃ c, capacity = some c ∧ c ≤ 0) :
    onmessageCap capacity = 4 ∧
    ∀ (labelsIn : List Int) (m : List (Int × ClusterC)) (eps : Option ℚ),
      mergeClustersToExpectedCount labelsIn m capacity eps = ⟨labelsIn, m, [], none⟩ := by
  constructor
  · rcases h with hnone | ⟨c, hc, hle⟩
    · subst hnone; rfl
    · subst hc
      unfold onmessageCap
      simp [not_lt.mpr hle]
  · intro labelsIn m eps
    rcases h with hnone | ⟨c, hc, hle⟩
    · subst hnone; rfl
    · subst hc
      unfold mergeClustersToExpectedCount
      simp [hle]

/-- Witness for `capacityNonpositive_coerced` at capacity 0. -/
theorem capacityNonpositive_coerced_witness :
    onmessageCap (some 0) = 4 ∧
    mergeClustersToExpectedCount [1] [] (some 0) none = ⟨[1], [], [], none⟩ := by
  have h := capacityNonpositive_coerced (some 0) (Or.inr ⟨0, rfl, by decide⟩)
  exact ⟨h.1, h.2 [1] [] none⟩

/-- Behaviour of the driver's retry loop from an arbitrary start index:
the chosen attempt is the first solved one in `e, e+1, …, e+remaining`
(otherwise the last), its stored board and solver result match its
`extraUsed`, and every earlier attempt in the sweep failed. -/
theorem solveSweep_spec (solve : List (List ℕ) → SolveInfo) (base : List (List ℕ)) :
    ∀ remaining e,
      e ≤ (solveSweep solve base e remaining).extraUsed ∧
      (solveSweep solve base e remaining).extraUsed ≤ e + remaining ∧
      (solveSweep solve base e remaining).initial =
        addExtraEmptyBottles base (solveSweep solve base e remaining).extraUsed ∧
      (solveSweep solve base e remaining).info =
        solve (addExtraEmptyBottles base (solveSweep solve base e remaining).extraUsed) ∧
      (∀ k, e ≤ k → k < (solveSweep solve base e remaining).extraUsed →
        (solve (addExtraEmptyBottles base k)).solved = false) ∧
      ((solveSweep solve base e remaining).info.solved = false →
        (solveSweep solve base e remaining).extraUsed = e + remaining) := by
  intro remaining
  induction remaining with
  | zero =>
    intro e
    by_cases hs : (solve (addExtraEmptyBottles base e)).solved
    · simp [solveSweep, hs]
      exact fun k h1 h2 => absurd (h1.trans_lt h2) (lt_irrefl e)
    · simp [solveSweep, hs]
      exact fun k h1 h2 => absurd (h1.trans_lt h2) (lt_irrefl e)
  | succ r ih =>
    intro e
    by_cases hs : (solve (addExtraEmptyBottles base e)).solved
    · simp [solveSweep, hs]
      exact fun k h1 h2 => absurd (h1.trans_lt h2) (lt_irrefl e)
    · have hstep : solveSweep solve base e (r + 1) = solveSweep solve base (e + 1) r := by
        simp [solveSweep, hs]
      obtain ⟨ih1, ih2, ih3, ih4, ih5, ih6⟩ := ih (e + 1)
      rw [hstep]
      refine ⟨by omega, by omega, ih3, ih4, ?_, fun hf => by have := ih6 hf; omega⟩
      intro k hk1 hk2
      rcases Nat.eq_or_lt_of_le hk1 with hke | hke
      · subst hke
        exact Bool.eq_false_iff.mpr hs
      · exact ih5 k hke hk2

/-- C7: the solve driver tries `e = 0, 1, 2, …` extra empty bottles
appended to the base stacks in increasing order, stops at the first solved
attempt and reports it with `extraUsed = e`; if no attempt up to
`allowedExtra` solves, it reports the final attempt (`e = allowedExtra`);
and the appended extra bottles are empty and are never members of the rock
set (whose indices refer to the original bottles). -/
theorem solveAndRender_sweep (solve : List (List ℕ) → SolveInfo) (base : List (List ℕ))
    (allowedExtra : ℕ) (rockSet : List ℕ)
    (hrock : ∀ r ∈ rockSet, r < base.length) :
    (solveAndRenderCore solve base allowedExtra).extraUsed ≤ allowedExtra ∧
    (solveAndRenderCore solve base allowedExtra).initial =
      addExtraEmptyBottles base (solveAndRenderCore solve base allowedExtra).extraUsed ∧
    (solveAndRenderCore solve base allowedExtra).info =
      solve (addExtraEmptyBottles base (solveAndRenderCore solve base allowedExtra).extraUsed) ∧
    (∀ e < (solveAndRenderCore solve base allowedExtra).extraUsed,
      (solve (addExtraEmptyBottles base e)).solved = false) ∧
    ((solveAndRenderCore solve base allowedExtra).info.solved = false →
      (solveAndRenderCore solve base allowedExtra).extraUsed = allowedExtra) ∧
    (∀ e j, base.length ≤ j →
      (addExtraEmptyBottles base e).getD j [] = [] ∧ j ∉ rockSet) := by
  obtain ⟨h1, h2, h3, h4, h5, h6⟩ := solveSweep_spec solve base allowedExtra 0
  refine ⟨by simpa using h2, h3, h4, fun e he => h5 e (Nat.zero_le e) he,
    fun hf => by simpa using h6 hf, ?_⟩
  intro e j hj
  constructor
  · unfold addExtraEmptyBottles
    rcases lt_or_le j (base.length + e) with hlt | hge
    · rw [List.getD_eq_getElem?_getD, List.getElem?_append_right hj]
      have : j - base.length < e := by omega
      rw [List.getElem?_replicate_of_lt this]
      rfl
    · rw [List.getD_eq_getElem?_getD, List.getElem?_eq_none]
      · rfl
      · simpa using hge
  · intro hmem
    exact absurd (hrock j hmem) (not_lt.mpr hj)

/-- Witness for `solveAndRender_sweep`: a concrete sweep with an empty
rock set over a tiny base board. -/
theorem solveAndRender_sweep_witness :
    (solveAndRenderCore (fun _ => ⟨false, []⟩) [[1, 1]] 2).extraUsed ≤ 2 ∧
    (solveAndRenderCore (fun _ => ⟨false, []⟩) [[1, 1]] 2).initial =
      addExtraEmptyBottles [[1, 1]]
        (solveAndRenderCore (fun _ => ⟨false, []⟩) [[1, 1]] 2).extraUsed ∧
    (solveAndRenderCore (fun _ => ⟨false, []⟩) [[1, 1]] 2).info =
      (fun _ => (⟨false, []⟩ : SolveInfo)) (addExtraEmptyBottles [[1, 1]]
        (solveAndRenderCore (fun _ => ⟨false, []⟩) [[1, 1]] 2).extraUsed) ∧
    (∀ e < (solveAndRenderCore (fun _ => ⟨false, []⟩) [[1, 1]] 2).extraUsed,
      ((fun _ => (⟨false, []⟩ : SolveInfo)) (addExtraEmptyBottles [[1, 1]] e)).solved = false) ∧
    ((solveAndRenderCore (fun _ => ⟨false, []⟩) [[1, 1]] 2).info.solved = false →
      (solveAndRenderCore (fun _ => ⟨false, []⟩) [[1, 1]] 2).extraUsed = 2) ∧
    (∀ e j, ([[1, 1]] : List (List ℕ)).length ≤ j →
      (addExtraEmptyBottles [[1, 1]] e).getD j [] = [] ∧ j ∉ ([0] : List ℕ)) :=
  solveAndRender_sweep (fun _ => ⟨false, []⟩) [[1, 1]] 2 [0] (by decide)

/-- Squared distance is symmetric. -/
theorem sqDist3_symm (a b : ℚ × ℚ × ℚ) : sqDist3 a b = sqDist3 b a := by
  unfold sqDist3; ring

/-- A key has a lookup exactly when it occurs among the keys. -/
theorem lookup_isSome_iff {β : Type} {m : List (Int × β)} {k : Int} :
    (List.lookup k m).isSome ↔ k ∈ m.map Prod.fst := by
  induction m with
  | nil => simp [List.lookup]
  | cons e rest ih =>
    by_cases h : k = e.1
    · simp [List.lookup, h]
    · simpa [List.lookup, beq_false_of_ne h, h] using ih

/-- A successful lookup returns an entry of the list. -/
theorem lookup_mem {β : Type} {m : List (Int × β)} {k : Int} {v : β}
    (h : List.lookup k m = some v) : (k, v) ∈ m := by
  induction m with
  | nil => simp [List.lookup] at h
  | cons e rest ih =>
    by_cases hk : k = e.1
    · subst hk
      simp only [List.lookup, beq_self_eq_true, Option.some.injEq] at h
      exact List.mem_cons.mpr (Or.inl (by rw [← h]))
    · simp only [List.lookup, beq_false_of_ne hk] at h
      exact List.mem_cons_of_mem _ (ih h)

/-- Ids in `sortedKeys` are exactly the map's keys. -/
theorem mem_sortedKeys {m : List (Int × ClusterC)} {k : Int} :
    k ∈ sortedKeys m ↔ k ∈ m.map Prod.fst :=
  (List.perm_insertionSort (· ≤ ·) (m.map Prod.fst)).mem_iff

/-- `sortedKeys` of a map with nodup keys is strictly sorted. -/
theorem sortedKeys_sorted_lt {m : List (Int × ClusterC)}
    (hnd : (m.map Prod.fst).Nodup) : (sortedKeys m).Sorted (· < ·) :=
  (List.sorted_insertionSort (· ≤ ·) (m.map Prod.fst)).lt_of_le
    ((List.perm_insertionSort (· ≤ ·) (m.map Prod.fst)).nodup_iff.mpr hnd)

/-- Both components of a `pairsOf` pair occur in the id list, and on a
strictly sorted list the first is smaller. -/
theorem pairsOf_mem_spec : ∀ {ids : List Int} {p : Int × Int},
    p ∈ pairsOf ids → ids.Sorted (· < ·) → p.1 ∈ ids ∧ p.2 ∈ ids ∧ p.1 < p.2 := by
  intro ids
  induction ids with
  | nil => intro p hp; simp [pairsOf] at hp
  | cons a rest ih =>
    intro p hp hs
    rw [pairsOf, List.mem_append] at hp
    rcases hp with hp | hp
    · obtain ⟨b, hb, rfl⟩ := List.mem_map.mp hp
      exact ⟨List.mem_cons_self a rest, List.mem_cons_of_mem _ hb,
        (List.sorted_cons.mp hs).1 b hb⟩
    · obtain ⟨h1, h2, h3⟩ := ih hp (List.sorted_cons.mp hs).2
      exact ⟨List.mem_cons_of_mem _ h1, List.mem_cons_of_mem _ h2, h3⟩

/-- On a strictly sorted id list, every ordered pair of members occurs in
`pairsOf`. -/
theorem pairsOf_mem_of_lt : ∀ {ids : List Int} {i j : Int},
    ids.Sorted (· < ·) → i ∈ ids → j ∈ ids → i < j → (i, j) ∈ pairsOf ids := by
  intro ids
  induction ids with
  | nil => intro i j _ hi; simp at hi
  | cons a rest ih =>
    intro i j hs hi hj hij
    rw [pairsOf, List.mem_append]
    rcases List.mem_cons.mp hi with rfl | hi'
    · left
      rcases List.mem_cons.mp hj with rfl | hj'
      · exact absurd hij (lt_irrefl _)
      · exact List.mem_map.mpr ⟨j, hj', rfl⟩
    · right
      rcases List.mem_cons.mp hj with rfl | hj'
      · exact absurd (((List.sorted_cons.mp hs).1 _ hi').trans hij) (lt_irrefl _)
      · exact ih (List.sorted_cons.mp hs).2 hi' hj' hij

/-- A best-pair search step never discards an already-found candidate. -/
theorem considerPair_none {cap : Int} {md : ℚ} {m : List (Int × ClusterC)}
    {best : Option MergeRec} {p : Int × Int}
    (h : considerPair cap md m best p = none) : best = none := by
  cases best with
  | none => rfl
  | some bb =>
    exfalso
    unfold considerPair at h
    cases h1 : List.lookup p.1 m with
    | none => rw [h1] at h; simp at h
    | some a =>
      cases h2 : List.lookup p.2 m with
      | none => rw [h1, h2] at h; simp at h
      | some b =>
        rw [h1, h2] at h
        dsimp only at h
        split_ifs at h <;> simp at h

/-- Processing an eligible pair always leaves a candidate at most as far
as that pair. -/
theorem considerPair_le {cap : Int} {md : ℚ} {m : List (Int × ClusterC)}
    {best : Option MergeRec} {p : Int × Int} {a b : ClusterC}
    (h1 : List.lookup p.1 m = some a) (h2 : List.lookup p.2 m = some b)
    (hcap : (a.count : Int) + b.count ≤ cap)
    (hd : sqDist3 a.center_lab b.center_lab ≤ md) :
    ∃ bb, considerPair cap md m best p = some bb ∧
      bb.dSq ≤ sqDist3 a.center_lab b.center_lab := by
  unfold considerPair
  rw [h1, h2]
  dsimp only
  rw [if_neg (not_lt.mpr hcap), if_neg (not_lt.mpr hd)]
  cases best with
  | none => exact ⟨_, rfl, le_refl _⟩
  | some bb0 =>
    dsimp only
    by_cases hlt : sqDist3 a.center_lab b.center_lab < bb0.dSq
    · rw [if_pos hlt]; exact ⟨_, rfl, le_refl _⟩
    · rw [if_neg hlt]; exact ⟨bb0, rfl, not_lt.mp hlt⟩

/-- A search step never worsens the candidate distance. -/
theorem considerPair_some {cap : Int} {md : ℚ} {m : List (Int × ClusterC)}
    {p : Int × Int} (bb0 : MergeRec) :
    ∃ bb, considerPair cap md m (some bb0) p = some bb ∧ bb.dSq ≤ bb0.dSq := by
  unfold considerPair
  cases h1 : List.lookup p.1 m with
  | none => exact ⟨bb0, rfl, le_refl _⟩
  | some a =>
    cases h2 : List.lookup p.2 m with
    | none => exact ⟨bb0, rfl, le_refl _⟩
    | some b =>
      dsimp only
      by_cases hcap : (a.count : Int) + b.count > cap
      · rw [if_pos hcap]; exact ⟨bb0, rfl, le_refl _⟩
      · rw [if_neg hcap]
        by_cases hmd : md < sqDist3 a.center_lab b.center_lab
        · rw [if_pos hmd]; exact ⟨bb0, rfl, le_refl _⟩
        · rw [if_neg hmd]
          by_cases hlt : sqDist3 a.center_lab b.center_lab < bb0.dSq
          · rw [if_pos hlt]; exact ⟨_, rfl, le_of_lt hlt⟩
          · rw [if_neg hlt]; exact ⟨bb0, rfl, le_refl _⟩

/-- Where a search step's candidate comes from: it is the previous
candidate, or it was built from the processed pair, which was then
eligible. -/
theorem considerPair_origin {cap : Int} {md : ℚ} {m : List (Int × ClusterC)}
    {best : Option MergeRec} {p : Int × Int} {bb : MergeRec}
    (h : considerPair cap md m best p = some bb) :
    best = some bb ∨
    ∃ a b, List.lookup p.1 m = some a ∧ List.lookup p.2 m = some b ∧
      (a.count : Int) + b.count ≤ cap ∧ sqDist3 a.center_lab b.center_lab ≤ md ∧
      bb = ⟨min p.1 p.2, max p.1 p.2, sqDist3 a.center_lab b.center_lab⟩ := by
  unfold considerPair at h
  cases h1 : List.lookup p.1 m with
  | none => rw [h1] at h; exact Or.inl h
  | some a =>
    cases h2 : List.lookup p.2 m with
    | none => rw [h1, h2] at h; exact Or.inl h
    | some b =>
      rw [h1, h2] at h
      dsimp only at h
      by_cases hcap : (a.count : Int) + b.count > cap
      · rw [if_pos hcap] at h; exact Or.inl h
      · rw [if_neg hcap] at h
        by_cases hmd : md < sqDist3 a.center_lab b.center_lab
        · rw [if_pos hmd] at h; exact Or.inl h
        · rw [if_neg hmd] at h
          cases best with
          | none =>
            dsimp only at h
            refine Or.inr ⟨a, b, rfl, rfl, not_lt.mp hcap, not_lt.mp hmd, ?_⟩
            cases h
            rfl
          | some bb0 =>
            dsimp only at h
            by_cases hlt : sqDist3 a.center_lab b.center_lab < bb0.dSq
            · rw [if_pos hlt] at h
              refine Or.inr ⟨a, b, rfl, rfl, not_lt.mp hcap, not_lt.mp hmd, ?_⟩
              cases h
              rfl
            · rw [if_neg hlt] at h; exact Or.inl h

/-- If the whole fold comes back empty, no processed pair was eligible. -/
theorem foldl_considerPair_none {cap : Int} {md : ℚ} {m : List (Int × ClusterC)} :
    ∀ (ps : List (Int × Int)) (best : Option MergeRec),
      ps.foldl (considerPair cap md m) best = none →
      best = none ∧ ∀ p ∈ ps, ∀ a b, List.lookup p.1 m = some a →
        List.lookup p.2 m = some b →
        ¬((a.count : Int) + b.count ≤ cap ∧ sqDist3 a.center_lab b.center_lab ≤ md) := by
  intro ps
  induction ps with
  | nil => intro best h; exact ⟨h, by simp⟩
  | cons q ps ih =>
    intro best h
    rw [List.foldl_cons] at h
    obtain ⟨hstep, hrest⟩ := ih _ h
    have hbest := considerPair_none hstep
    refine ⟨hbest, ?_⟩
    intro p hp a b h1 h2 ⟨hcap, hd⟩
    rcases List.mem_cons.mp hp with rfl | hp'
    · obtain ⟨bb, hbb, _⟩ := @considerPair_le cap md m best _ _ _ h1 h2 hcap hd
      rw [hbb] at hstep
      exact Option.noConfusion hstep
    · exact hrest p hp' a b h1 h2 ⟨hcap, hd⟩

/-- Folding from an existing candidate keeps a candidate at most as far. -/
theorem foldl_considerPair_mono {cap : Int} {md : ℚ} {m : List (Int × ClusterC)} :
    ∀ (ps : List (Int × Int)) (bb0 : MergeRec),
      ∃ bb, ps.foldl (considerPair cap md m) (some bb0) = some bb ∧ bb.dSq ≤ bb0.dSq := by
  intro ps
  induction ps with
  | nil => intro bb0; exact ⟨bb0, rfl, le_refl _⟩
  | cons q ps ih =>
    intro bb0
    obtain ⟨bb1, hbb1, hle1⟩ := @considerPair_some cap md m q bb0
    obtain ⟨bb, hbb, hle⟩ := ih bb1
    exact ⟨bb, by rw [List.foldl_cons, hbb1]; exact hbb, hle.trans hle1⟩

/-- The fold's result is at most as far as every eligible processed pair. -/
theorem foldl_considerPair_le {cap : Int} {md : ℚ} {m : List (Int × ClusterC)} :
    ∀ (ps : List (Int × Int)) (best : Option MergeRec) (p : Int × Int), p ∈ ps →
      ∀ a b, List.lookup p.1 m = some a → List.lookup p.2 m = some b →
      (a.count : Int) + b.count ≤ cap → sqDist3 a.center_lab b.center_lab ≤ md →
      ∃ bb, ps.foldl (considerPair cap md m) best = some bb ∧
        bb.dSq ≤ sqDist3 a.center_lab b.center_lab := by
  intro ps
  induction ps with
  | nil => intro best p hp; simp at hp
  | cons q ps ih =>
    intro best p hp a b h1 h2 hcap hd
    rcases List.mem_cons.mp hp with rfl | hp'
    · obtain ⟨bb1, hbb1, hle1⟩ := @considerPair_le cap md m best _ _ _ h1 h2 hcap hd
      obtain ⟨bb, hbb, hle⟩ := foldl_considerPair_mono ps bb1
      exact ⟨bb, by rw [List.foldl_cons, hbb1]; exact hbb, hle.trans hle1⟩
    · exact ih _ p hp' a b h1 h2 hcap hd

/-- Where the fold's result comes from: the initial candidate or a
then-eligible processed pair. -/
theorem foldl_considerPair_origin {cap : Int} {md : ℚ} {m : List (Int × ClusterC)} :
    ∀ (ps : List (Int × Int)) (best : Option MergeRec) (bb : MergeRec),
      ps.foldl (considerPair cap md m) best = some bb →
      best = some bb ∨
      ∃ p ∈ ps, ∃ a b, List.lookup p.1 m = some a ∧ List.lookup p.2 m = some b ∧
        (a.count : Int) + b.count ≤ cap ∧ sqDist3 a.center_lab b.center_lab ≤ md ∧
        bb = ⟨min p.1 p.2, max p.1 p.2, sqDist3 a.center_lab b.center_lab⟩ := by
  intro ps
  induction ps with
  | nil => intro best bb h; exact Or.inl h
  | cons q ps ih =>
    intro best bb h
    rw [List.foldl_cons] at h
    rcases ih _ _ h with hstep | ⟨p, hp, rest⟩
    · rcases considerPair_origin hstep with h' | ⟨a, b, h1, h2, hcap, hd, hbb⟩
      · exact Or.inl h'
      · exact Or.inr ⟨q, List.mem_cons_self q ps, a, b, h1, h2, hcap, hd, hbb⟩
    · exact Or.inr ⟨p, List.mem_cons_of_mem _ hp, rest⟩

/-- If the best-pair search finds nothing, no eligible pair exists. -/
theorem findBest_none {cap : Int} {md : ℚ} {m : List (Int × ClusterC)}
    (hnd : (m.map Prod.fst).Nodup) (h : findBest cap md m = none) :
    ∀ i j, ¬ EligiblePair cap md m i j := by
  rintro i j ⟨hij, a, b, ha, hb, hcap, hd⟩
  unfold findBest at h
  have hskip := (foldl_considerPair_none _ _ h).2
  have hsort := sortedKeys_sorted_lt hnd
  have hi : i ∈ sortedKeys m := mem_sortedKeys.mpr (lookup_isSome_iff.mp (by rw [ha]; rfl))
  have hj : j ∈ sortedKeys m := mem_sortedKeys.mpr (lookup_isSome_iff.mp (by rw [hb]; rfl))
  rcases lt_or_gt_of_ne hij with hlt | hgt
  · exact hskip (i, j) (pairsOf_mem_of_lt hsort hi hj hlt) a b ha hb ⟨hcap, hd⟩
  · exact hskip (j, i) (pairsOf_mem_of_lt hsort hj hi hgt) b a hb ha
      ⟨by rwa [add_comm], by rwa [sqDist3_symm]⟩

/-- What the best-pair search returns: an eligible pair, surviving id the
smaller one, its recorded distance the pair's distance, and minimal among
all eligible pairs. -/
theorem findBest_some {cap : Int} {md : ℚ} {m : List (Int × ClusterC)}
    (hnd : (m.map Prod.fst).Nodup) {bb : MergeRec} (h : findBest cap md m = some bb) :
    EligiblePair cap md m bb.keep bb.drop ∧ bb.keep < bb.drop ∧
    bb.dSq = pairDSq m bb.keep bb.drop ∧
    (∀ i j, EligiblePair cap md m i j → bb.dSq ≤ pairDSq m i j) := by
  have hsort := sortedKeys_sorted_lt hnd
  unfold findBest at h
  rcases foldl_considerPair_origin _ _ _ h with h0 | ⟨p, hp, a, b, h1, h2, hcap, hd, hbb⟩
  · exact absurd h0 (by simp)
  · obtain ⟨hp1, hp2, hplt⟩ := pairsOf_mem_spec hp hsort
    have hmin : min p.1 p.2 = p.1 := min_eq_left (le_of_lt hplt)
    have hmax : max p.1 p.2 = p.2 := max_eq_right (le_of_lt hplt)
    have hkeep : bb.keep = p.1 := by rw [hbb]; exact hmin
    have hdrop : bb.drop = p.2 := by rw [hbb]; exact hmax
    have hdsq : bb.dSq = sqDist3 a.center_lab b.center_lab := by rw [hbb]
    refine ⟨?_, ?_, ?_, ?_⟩
    · rw [hkeep, hdrop]
      exact ⟨ne_of_lt hplt, a, b, h1, h2, hcap, hd⟩
    · rw [hkeep, hdrop]; exact hplt
    · rw [hkeep, hdrop, hdsq]
      unfold pairDSq
      rw [h1, h2]
    · intro i j him
      obtain ⟨hij, a', b', ha', hb', hcap', hd'⟩ := him
      have hi : i ∈ sortedKeys m := mem_sortedKeys.mpr (lookup_isSome_iff.mp (by rw [ha']; rfl))
      have hj : j ∈ sortedKeys m := mem_sortedKeys.mpr (lookup_isSome_iff.mp (by rw [hb']; rfl))
      have hpd : pairDSq m i j = sqDist3 a'.center_lab b'.center_lab := by
        unfold pairDSq; rw [ha', hb']
      rw [hpd]
      rcases lt_or_gt_of_ne hij with hlt | hgt
      · obtain ⟨bb'', hbb'', hle⟩ :=
          foldl_considerPair_le (pairsOf (sortedKeys m)) none (i, j)
            (pairsOf_mem_of_lt hsort hi hj hlt) a' b' ha' hb' hcap' hd'
        rw [h] at hbb''
        cases hbb''
        exact hle
      · have hcap'' : (b'.count : Int) + a'.count ≤ cap := by omega
        have hd'' : sqDist3 b'.center_lab a'.center_lab ≤ md := by
          rw [sqDist3_symm]; exact hd'
        obtain ⟨bb'', hbb'', hle⟩ :=
          foldl_considerPair_le (pairsOf (sortedKeys m)) none (j, i)
            (pairsOf_mem_of_lt hsort hj hi hgt) b' a' hb' ha' hcap'' hd''
        rw [h] at hbb''
        cases hbb''
        rw [sqDist3_symm]
        exact hle

/-- Lookup through the reconciler's `keep`-record rewrite. -/
theorem lookup_map_update (keep : Int) (c : ClusterC) :
    ∀ (m : List (Int × ClusterC)) (k : Int),
    List.lookup k (m.map fun e => if e.1 = keep then (keep, c) else e) =
      if k = keep then (List.lookup keep m).map (fun _ => c) else List.lookup k m := by
  intro m
  induction m with
  | nil => intro k; by_cases hk : k = keep <;> simp [hk]
  | cons e rest ih =>
    obtain ⟨e1, e2⟩ := e
    intro k
    by_cases hek : e1 = keep
    · subst hek
      by_cases hk : k = e1
      · subst hk
        simp [List.lookup_cons]
      · simp [List.lookup_cons, beq_false_of_ne hk, hk, ih]
    · by_cases hk : k = e1
      · subst hk
        simp [List.lookup_cons, hek, Ne.symm hek]
      · by_cases hk2 : k = keep
        · subst hk2
          simp [List.lookup_cons, hek, beq_false_of_ne (Ne.symm hek), ih,
            beq_false_of_ne hk]
        · simp [List.lookup_cons, hek, beq_false_of_ne hk, hk2, ih]

/-- The `keep`-record rewrite leaves the key list unchanged. -/
theorem keys_map_update (keep : Int) (c : ClusterC) (m : List (Int × ClusterC)) :
    ((m.map fun e => if e.1 = keep then (keep, c) else e).map Prod.fst) = m.map Prod.fst := by
  rw [List.map_map]
  apply List.map_congr_left
  intro e _
  by_cases h : e.1 = keep <;> simp [h]

/-- After `delete clusterInfo[dropId]`, the dropped id has no record. -/
theorem lookup_filter_self (dropId : Int) (m : List (Int × ClusterC)) :
    List.lookup dropId (m.filter fun e => decide (e.1 ≠ dropId)) = none := by
  rw [List.lookup_eq_none_iff]
  intro p hp
  have h := (List.mem_filter.mp hp).2
  simp only [decide_eq_true_eq] at h
  simp only [bne_iff_ne, ne_eq]
  exact fun heq => h heq.symm

/-- Deleting one id leaves every other lookup unchanged. -/
theorem lookup_filter_ne (dropId k : Int) (hk : k ≠ dropId) :
    ∀ (m : List (Int × ClusterC)),
    List.lookup k (m.filter fun e => decide (e.1 ≠ dropId)) = List.lookup k m := by
  intro m
  induction m with
  | nil => rfl
  | cons e rest ih =>
    obtain ⟨e1, e2⟩ := e
    by_cases hed : e1 = dropId
    · subst hed
      rw [List.filter_cons, if_neg (by simp), ih]
      simp only [List.lookup_cons, beq_false_of_ne hk]
    · by_cases hk1 : k = e1
      · subst hk1
        rw [List.filter_cons, if_pos (by simp [hed])]
        rw [List.lookup_cons_self, List.lookup_cons_self]
      · rw [List.filter_cons, if_pos (by simp [hed])]
        simp only [List.lookup_cons, beq_false_of_ne hk1]
        exact ih

/-- Deleting a live id from a nodup-keyed map removes exactly one entry. -/
theorem filter_drop_length (dropId : Int) :
    ∀ (m : List (Int × ClusterC)), (m.map Prod.fst).Nodup → dropId ∈ m.map Prod.fst →
    (m.filter fun e => decide (e.1 ≠ dropId)).length + 1 = m.length := by
  intro m
  induction m with
  | nil => intro _ h; simp at h
  | cons e rest ih =>
    intro hnd hmem
    obtain ⟨e1, e2⟩ := e
    rw [List.map_cons, List.nodup_cons] at hnd
    by_cases hed : e1 = dropId
    · subst hed
      have hno : rest.filter (fun e => decide (e.1 ≠ e1)) = rest := by
        apply List.filter_eq_self.mpr
        intro p hp
        simp only [decide_eq_true_eq]
        intro heq
        have hmm : p.1 ∈ rest.map Prod.fst := List.mem_map_of_mem Prod.fst hp
        rw [heq] at hmm
        exact hnd.1 hmm
      rw [List.filter_cons, if_neg (by simp), hno, List.length_cons]
    · have hmem' : dropId ∈ rest.map Prod.fst := by
        rcases List.mem_cons.mp hmem with h | h
        · exact absurd h.symm hed
        · exact h
      have hlen := ih hnd.2 hmem'
      rw [List.filter_cons, if_pos (by simp [hed]), List.length_cons, List.length_cons]
      omega

/-- `sumCounts` over a cons. -/
theorem sumCounts_cons (e : Int × ClusterC) (m : List (Int × ClusterC)) :
    sumCounts (e :: m) = e.2.count + sumCounts m := by
  simp [sumCounts]

/-- Rewriting the `keep` record changes the total member count by the
difference of the records. -/
theorem sumCounts_map_update (keep : Int) (c : ClusterC) :
    ∀ (m : List (Int × ClusterC)), (m.map Prod.fst).Nodup →
    ∀ a, List.lookup keep m = some a →
    sumCounts (m.map fun e => if e.1 = keep then (keep, c) else e) + a.count =
      sumCounts m + c.count := by
  intro m
  induction m with
  | nil => intro _ a ha; simp at ha
  | cons e rest ih =>
    intro hnd a ha
    obtain ⟨e1, e2⟩ := e
    rw [List.map_cons, List.nodup_cons] at hnd
    by_cases hek : e1 = keep
    · subst hek
      rw [List.lookup_cons_self] at ha
      cases ha
      have hupd : ∀ p ∈ rest, (if p.1 = e1 then (e1, c) else p) = p := by
        intro p hp
        have hne : p.1 ≠ e1 := by
          intro heq
          have hmm : p.1 ∈ rest.map Prod.fst := List.mem_map_of_mem Prod.fst hp
          rw [heq] at hmm
          exact hnd.1 hmm
        simp [hne]
      rw [List.map_cons, List.map_congr_left hupd, List.map_id']
      dsimp only
      rw [if_pos rfl, sumCounts_cons, sumCounts_cons]
      dsimp only
      omega
    · rw [List.lookup_cons, beq_false_of_ne (fun h => hek h.symm)] at ha
      have := ih hnd.2 a ha
      rw [List.map_cons]
      simp only [if_neg hek]
      rw [sumCounts_cons, sumCounts_cons]
      omega

/-- Deleting the `dropId` record removes exactly its member count. -/
theorem sumCounts_filter_drop (dropId : Int) :
    ∀ (m : List (Int × ClusterC)), (m.map Prod.fst).Nodup →
    ∀ b, List.lookup dropId m = some b →
    sumCounts (m.filter fun e => decide (e.1 ≠ dropId)) + b.count = sumCounts m := by
  intro m
  induction m with
  | nil => intro _ b hb; simp at hb
  | cons e rest ih =>
    intro hnd b hb
    obtain ⟨e1, e2⟩ := e
    rw [List.map_cons, List.nodup_cons] at hnd
    by_cases hed : e1 = dropId
    · subst hed
      rw [List.lookup_cons_self] at hb
      cases hb
      have hno : rest.filter (fun e => decide (e.1 ≠ e1)) = rest := by
        apply List.filter_eq_self.mpr
        intro p hp
        simp only [decide_eq_true_eq]
        intro heq
        have hmm : p.1 ∈ rest.map Prod.fst := List.mem_map_of_mem Prod.fst hp
        rw [heq] at hmm
        exact hnd.1 hmm
      rw [List.filter_cons, if_neg (by simp), hno, sumCounts_cons]
      dsimp only
      omega
    · rw [List.lookup_cons, beq_false_of_ne (fun h => hed h.symm)] at hb
      have := ih hnd.2 b hb
      rw [List.filter_cons, if_pos (by simp [hed]), sumCounts_cons, sumCounts_cons]
      omega

/-- `mergeInto` on two live records realizes the specification-side merge
effect, keeps the key list nodup, conserves the total member count, and
preserves the label array's length. -/
theorem mergeInto_effect {labels : List Int} {m : List (Int × ClusterC)} {keep dropId : Int}
    {a b : ClusterC}
    (hnd : (m.map Prod.fst).Nodup)
    (hk : List.lookup keep m = some a) (hd : List.lookup dropId m = some b)
    (hne : keep ≠ dropId) :
    SpecMergeEffect labels m keep dropId (mergeInto labels m keep dropId).1
      (mergeInto labels m keep dropId).2 ∧
    ((mergeInto labels m keep dropId).2.map Prod.fst).Nodup ∧
    sumCounts (mergeInto labels m keep dropId).2 = sumCounts m ∧
    (mergeInto labels m keep dropId).1.length = labels.length := by
  have hres : mergeInto labels m keep dropId =
      (labels.map fun x => if x = dropId then keep else x,
       ((m.map fun e => if e.1 = keep then (keep, poolClusters a b) else e).filter
         fun e => decide (e.1 ≠ dropId))) := by
    unfold mergeInto
    rw [hk, hd]
  rw [hres]
  dsimp only
  have hkeys1 : ((m.map fun e => if e.1 = keep then (keep, poolClusters a b) else e).map
      Prod.fst) = m.map Prod.fst := keys_map_update keep (poolClusters a b) m
  have hnd1 : (((m.map fun e => if e.1 = keep then (keep, poolClusters a b) else e)).map
      Prod.fst).Nodup := by
    rw [hkeys1]; exact hnd
  have hlk1 : List.lookup keep (m.map fun e => if e.1 = keep then (keep, poolClusters a b) else e)
      = some (poolClusters a b) := by
    rw [lookup_map_update, if_pos rfl, hk]
    rfl
  have hld1 : List.lookup dropId
      (m.map fun e => if e.1 = keep then (keep, poolClusters a b) else e) = some b := by
    rw [lookup_map_update, if_neg (fun h => hne h.symm), hd]
  have hmem1 : dropId ∈ ((m.map fun e => if e.1 = keep then (keep, poolClusters a b) else e).map
      Prod.fst) := by
    apply lookup_isSome_iff.mp
    rw [hld1]
    rfl
  refine ⟨⟨rfl, ⟨a, b, poolClusters a b, hk, hd, ?_, rfl, rfl, rfl⟩, ?_, ?_, ?_⟩, ?_, ?_, ?_⟩
  · rw [lookup_filter_ne dropId keep hne, hlk1]
  · exact lookup_filter_self dropId _
  · intro k hkk hkd
    rw [lookup_filter_ne dropId k hkd, lookup_map_update, if_neg hkk]
  · have := filter_drop_length dropId _ hnd1 hmem1
    rw [this, List.length_map]
  · exact ((List.filter_sublist _).map Prod.fst).nodup hnd1
  · have h1 := sumCounts_map_update keep (poolClusters a b) m hnd a hk
    have h2 := sumCounts_filter_drop dropId _ hnd1 b hld1
    have h3 : (poolClusters a b).count = a.count + b.count := rfl
    omega
  · exact List.length_map _ _

/-- The merge loop realizes a specification-side merge chain: every round
merges a minimal-distance eligible pair (surviving id the smaller) and
logs it, and the loop ends only by reaching the expected count or by
running out of eligible pairs.  `fuel ≥ m.length` suffices because every
round deletes one live id. -/
theorem mergeLoop_chain (cap : Int) (md : ℚ) (expected : Int) (hexp : 0 ≤ expected) :
    ∀ (fuel : ℕ) (labels : List Int) (m : List (Int × ClusterC)) (acc : List MergeRec),
      (m.map Prod.fst).Nodup → m.length ≤ fuel →
      ∃ ms, (mergeLoop cap md expected fuel (labels, m, acc)).2.2 = acc ++ ms ∧
        MergeChain cap md expected (labels, m)
          ((mergeLoop cap md expected fuel (labels, m, acc)).1,
           (mergeLoop cap md expected fuel (labels, m, acc)).2.1) ms := by
  intro fuel
  induction fuel with
  | zero =>
    intro labels m acc _ hlen
    have hm : m = [] := List.length_eq_zero.mp (Nat.le_zero.mp hlen)
    subst hm
    exact ⟨[], by simp [mergeLoop], MergeChain.stop_reached (by simpa using hexp)⟩
  | succ fuel ih =>
    intro labels m acc hnd hlen
    by_cases hcond : (m.length : Int) > expected
    · cases hfb : findBest cap md m with
      | none =>
        have heq : mergeLoop cap md expected (fuel + 1) (labels, m, acc) = (labels, m, acc) := by
          unfold mergeLoop
          rw [if_pos hcond, hfb]
        rw [heq]
        exact ⟨[], by simp, MergeChain.stop_stuck hcond (findBest_none hnd hfb)⟩

      | some bb =>
        obtain ⟨helig, hltkd, hdsq, hmin⟩ := findBest_some hnd hfb
        obtain ⟨hneq, a, b, ha, hb, hcapab, hdab⟩ := helig
        obtain ⟨heff, hnd', hsum', hlablen⟩ :=
          @mergeInto_effect labels _ _ _ _ _ hnd ha hb hneq
        have hstep : mergeLoop cap md expected (fuel + 1) (labels, m, acc) =
            mergeLoop cap md expected fuel
              ((mergeInto labels m bb.keep bb.drop).1,
               (mergeInto labels m bb.keep bb.drop).2, acc ++ [bb]) := by
          conv_lhs => rw [mergeLoop]
          rw [if_pos hcond, hfb]
        have hlen' : (mergeInto labels m bb.keep bb.drop).2.length ≤ fuel := by
          have := heff.2.2.2.2
          omega
        obtain ⟨ms, hms, hchain⟩ := ih _ _ (acc ++ [bb]) hnd' hlen'
        rw [hstep]
        refine ⟨bb :: ms, ?_, ?_⟩
        · rw [hms, List.append_assoc]
          rfl
        · exact MergeChain.step hcond ⟨hneq, a, b, ha, hb, hcapab, hdab⟩ hltkd hdsq hmin
            heff hchain
    · have heq : mergeLoop cap md expected (fuel + 1) (labels, m, acc) = (labels, m, acc) := by
        unfold mergeLoop
        rw [if_neg hcond]
      rw [heq]
      exact ⟨[], by simp, MergeChain.stop_reached (not_lt.mp hcond)⟩

/-- A merge chain that ends above the expected count ends because no
eligible pair remains. -/
theorem mergeChain_stuck {cap : Int} {md : ℚ} {expected : Int}
    {init fin : List Int × List (Int × ClusterC)} {ms : List MergeRec}
    (h : MergeChain cap md expected init fin ms) :
    (fin.2.length : Int) > expected → ∀ i j, ¬ EligiblePair cap md fin.2 i j := by
  induction h with
  | stop_reached hle => exact fun hgt => absurd hgt (not_lt.mpr hle)
  | stop_stuck hgt hno => exact fun _ => hno
  | step _ _ _ _ _ _ _ ih => exact fun hgt => ih hgt

/-- The reconciler on a full run (positive divisible sample count, nodup
provisional cluster ids): the expected count is `total / capacity` and the
produced labels, clusters and merge log form a specification-side merge
chain from the provisional state. -/
theorem mergeClusters_chain (labelsIn : List Int) (m : List (Int × ClusterC)) (c : Int)
    (dbscanEps : Option ℚ) (hnd : (m.map Prod.fst).Nodup) (hc : 0 < c)
    (h0 : labelsIn.length ≠ 0) (hdiv : (labelsIn.length : Int) % c = 0) :
    (mergeClustersToExpectedCount labelsIn m (some c) dbscanEps).expectedColors =
      some ((labelsIn.length : Int) / c) ∧
    MergeChain c ((max 8 ((match dbscanEps with | some e => e | none => 16) * (6 / 5))) ^ 2)
      ((labelsIn.length : Int) / c) (labelsIn, m)
      ((mergeClustersToExpectedCount labelsIn m (some c) dbscanEps).labels,
       (mergeClustersToExpectedCount labelsIn m (some c) dbscanEps).clusterInfo)
      (mergeClustersToExpectedCount labelsIn m (some c) dbscanEps).merges := by
  have hcle : ¬ c ≤ 0 := not_le.mpr hc
  have hexp : (0 : Int) ≤ (labelsIn.length : Int) / c :=
    Int.ediv_nonneg (Int.ofNat_nonneg _) (le_of_lt hc)
  obtain ⟨ms, hms, hchain⟩ :=
    mergeLoop_chain c
      ((max 8 ((match dbscanEps with | some e => e | none => 16) * (6 / 5))) ^ 2)
      ((labelsIn.length : Int) / c) hexp m.length labelsIn m [] hnd (le_refl _)
  simp only [mergeClustersToExpectedCount]
  rw [if_neg hcle, if_neg h0, if_neg (by simpa using hdiv)]
  refine ⟨rfl, ?_⟩
  simp only [List.nil_append] at hms
  dsimp only
  rw [hms]
  exact hchain

/-- The flood-fill scan step preserves the label array's length. -/
theorem scanIdx_length (labs : List (ℚ × ℚ × ℚ)) (eps : ℚ) (cid p : ℕ) :
    ∀ (idxs : List ℕ) (labels : List Int),
      (scanIdx labs eps cid p idxs labels).1.length = labels.length := by
  intro idxs
  induction idxs with
  | nil => intro labels; rfl
  | cons j rest ih =>
    intro labels
    unfold scanIdx
    by_cases h1 : labels.getD j (-1) ≠ -1
    · rw [if_pos h1]; exact ih labels
    · rw [if_neg h1]
      by_cases h2 : sqrtLe (sqDist3 (labs.getD p (0, 0, 0)) (labs.getD j (0, 0, 0))) eps
      · rw [if_pos h2]
        dsimp only
        rw [ih]
        exact List.length_set labels j (cid : Int)
      · rw [if_neg h2]; exact ih labels

/-- The flood-fill loop preserves the label array's length. -/
theorem floodLoop_length (labs : List (ℚ × ℚ × ℚ)) (eps : ℚ) (cid : ℕ) :
    ∀ (fuel : ℕ) (labels : List Int) (queue : List ℕ),
      (floodLoop labs eps cid fuel labels queue).length = labels.length := by
  intro fuel
  induction fuel with
  | zero => intro labels queue; rfl
  | succ fuel ih =>
    intro labels queue
    cases queue with
    | nil => rfl
    | cons p rest =>
      unfold floodLoop
      dsimp only
      rw [ih, scanIdx_length]

/-- The DBSCAN outer loop preserves the label array's length. -/
theorem assignLabels_length (labs : List (ℚ × ℚ × ℚ)) (eps : ℚ) :
    ∀ (idxs : List ℕ) (cid : ℕ) (labels : List Int),
      (assignLabels labs eps idxs cid labels).1.length = labels.length := by
  intro idxs
  induction idxs with
  | nil => intro cid labels; rfl
  | cons i rest ih =>
    intro cid labels
    unfold assignLabels
    by_cases h1 : labels.getD i (-1) ≠ -1
    · rw [if_pos h1]; exact ih cid labels
    · rw [if_neg h1]
      rw [ih, floodLoop_length, List.length_set]

/-- The clustering emits one label per sample. -/
theorem dbscan_labels_length (samples : List SampleC) (eps : ℚ) :
    (clusterColorsDbscan samples eps).labels.length = samples.length := by
  unfold clusterColorsDbscan
  by_cases h : samples.length = 0
  · rw [if_pos h]; simp [h]
  · rw [if_neg h]
    dsimp only
    rw [assignLabels_length, List.length_replicate]

/-- The provisional cluster map's keys are `0, …, cid-1`, hence nodup. -/
theorem buildClusterInfo_keys (samples : List SampleC) (labels : List Int) (cid : ℕ) :
    (buildClusterInfo samples labels cid).map Prod.fst =
      (List.range cid).map (fun k => Int.ofNat k) := by
  unfold buildClusterInfo
  rw [List.map_map]
  rfl

/-- The clustering's provisional cluster ids are nodup. -/
theorem dbscan_keys_nodup (samples : List SampleC) (eps : ℚ) :
    ((clusterColorsDbscan samples eps).clusterInfo.map Prod.fst).Nodup := by
  unfold clusterColorsDbscan
  by_cases h : samples.length = 0
  · rw [if_pos h]; simp
  · rw [if_neg h]
    dsimp only
    rw [buildClusterInfo_keys]
    exact List.Nodup.map (fun a b hab => Int.ofNat.inj hab) (List.nodup_range _)

/-- C1: on a sample set whose filled-slot count is a positive multiple of
the capacity, the reconciler reports `expected = total/capacity` and
performs exactly the specified greedy loop: while the live cluster count
exceeds `expected`, it merges precisely a minimal-Lab-distance eligible
pair — combined member count at most `capacity`, centroid distance at most
`max(8.0, 1.2·eps)`, members pooled, the surviving (smaller) id's centroid
set to the member-count-weighted mean, the absorbed id dropped — and the
loop stops as soon as no eligible pair remains, even above the expected
count (`MergeChain` states this loop contract; distances are compared
squared). -/
theorem clusterReconciler_greedy_merge (samples : List SampleC) (epsCl : ℚ) (c : Int)
    (dbscanEps : Option ℚ) (hc : 0 < c) (hn : samples.length ≠ 0)
    (hdiv : (samples.length : Int) % c = 0) :
    (mergeClustersToExpectedCount (clusterColorsDbscan samples epsCl).labels
        (clusterColorsDbscan samples epsCl).clusterInfo (some c) dbscanEps).expectedColors =
      some ((samples.length : Int) / c) ∧
    MergeChain c ((max 8 ((match dbscanEps with | some e => e | none => 16) * (6 / 5))) ^ 2)
      ((samples.length : Int) / c)
      ((clusterColorsDbscan samples epsCl).labels,
       (clusterColorsDbscan samples epsCl).clusterInfo)
      ((mergeClustersToExpectedCount (clusterColorsDbscan samples epsCl).labels
          (clusterColorsDbscan samples epsCl).clusterInfo (some c) dbscanEps).labels,
       (mergeClustersToExpectedCount (clusterColorsDbscan samples epsCl).labels
          (clusterColorsDbscan samples epsCl).clusterInfo (some c) dbscanEps).clusterInfo)
      (mergeClustersToExpectedCount (clusterColorsDbscan samples epsCl).labels
        (clusterColorsDbscan samples epsCl).clusterInfo (some c) dbscanEps).merges := by
  have hlen := dbscan_labels_length samples epsCl
  have h := mergeClusters_chain (clusterColorsDbscan samples epsCl).labels
    (clusterColorsDbscan samples epsCl).clusterInfo c dbscanEps
    (dbscan_keys_nodup samples epsCl) hc (by rw [hlen]; exact hn)
    (by rw [hlen]; exact hdiv)
  rw [hlen] at h
  exact h

/-- Witness for `clusterReconciler_greedy_merge`: two samples, capacity 2. -/
theorem clusterReconciler_greedy_merge_witness :
    (0 : Int) < 2 ∧ ([⟨(0, 0, 0), (0, 0, 0)⟩, ⟨(0, 0, 0), (0, 0, 0)⟩] :
      List SampleC).length ≠ 0 ∧
    (((([⟨(0, 0, 0), (0, 0, 0)⟩, ⟨(0, 0, 0), (0, 0, 0)⟩] : List SampleC).length : Int) % 2) = 0) ∧
    (mergeClustersToExpectedCount
        (clusterColorsDbscan [⟨(0, 0, 0), (0, 0, 0)⟩, ⟨(0, 0, 0), (0, 0, 0)⟩] 16).labels
        (clusterColorsDbscan [⟨(0, 0, 0), (0, 0, 0)⟩, ⟨(0, 0, 0), (0, 0, 0)⟩] 16).clusterInfo
        (some 2) (some 16)).expectedColors =
      some ((([⟨(0, 0, 0), (0, 0, 0)⟩, ⟨(0, 0, 0), (0, 0, 0)⟩] :
        List SampleC).length : Int) / 2) :=
  ⟨by decide, by decide, by decide,
    (clusterReconciler_greedy_merge [⟨(0, 0, 0), (0, 0, 0)⟩, ⟨(0, 0, 0), (0, 0, 0)⟩] 16 2
      (some 16) (by decide) (by decide) (by decide)).1⟩

/-- C2 counterexample: 8 samples with capacity 4 (total divisible by
capacity, `expected = 2`), provisionally clustered into three clusters of
sizes 3, 3 and 2.  Every pair's combined member count exceeds the
capacity, so no pair is eligible and the reconciler stops with 3 > 2
clusters: the final cluster count can exceed `total/capacity`. -/
theorem mergeClusters_exceeds_expected :
    ((8 : Int) % 4 = 0) ∧ ((8 : Int) / 4 = 2) ∧
    ([(0 : Int), 0, 0, 1, 1, 1, 2, 2] : List Int).length = 8 ∧
    (mergeClustersToExpectedCount [0, 0, 0, 1, 1, 1, 2, 2]
      [(0, ⟨3, (0, 0, 0), (0, 0, 0)⟩), (1, ⟨3, (0, 0, 0), (0, 0, 0)⟩),
       (2, ⟨2, (0, 0, 0), (0, 0, 0)⟩)]
      (some 4) (some 16)).clusterInfo.length = 3 := by
  refine ⟨by decide, by decide, by decide, ?_⟩
  decide

/-- C2 amended: whenever the sample count is a positive multiple of the
capacity, the reconciler never merges two clusters whose member counts sum
to more than the capacity (every step of the merge chain is an eligible
pair), and the final cluster count exceeds `total/capacity` only when no
eligible pair remains among the final clusters. -/
theorem mergeClusters_capacity_bound (samples : List SampleC) (epsCl : ℚ) (c : Int)
    (dbscanEps : Option ℚ) (hc : 0 < c) (hn : samples.length ≠ 0)
    (hdiv : (samples.length : Int) % c = 0) :
    MergeChain c ((max 8 ((match dbscanEps with | some e => e | none => 16) * (6 / 5))) ^ 2)
      ((samples.length : Int) / c)
      ((clusterColorsDbscan samples epsCl).labels,
       (clusterColorsDbscan samples epsCl).clusterInfo)
      ((mergeClustersToExpectedCount (clusterColorsDbscan samples epsCl).labels
          (clusterColorsDbscan samples epsCl).clusterInfo (some c) dbscanEps).labels,
       (mergeClustersToExpectedCount (clusterColorsDbscan samples epsCl).labels
          (clusterColorsDbscan samples epsCl).clusterInfo (some c) dbscanEps).clusterInfo)
      (mergeClustersToExpectedCount (clusterColorsDbscan samples epsCl).labels
        (clusterColorsDbscan samples epsCl).clusterInfo (some c) dbscanEps).merges ∧
    ((((mergeClustersToExpectedCount (clusterColorsDbscan samples epsCl).labels
          (clusterColorsDbscan samples epsCl).clusterInfo (some c)
          dbscanEps).clusterInfo.length : Int) > (samples.length : Int) / c) →
      ∀ i j, ¬ EligiblePair c
        ((max 8 ((match dbscanEps with | some e => e | none => 16) * (6 / 5))) ^ 2)
        (mergeClustersToExpectedCount (clusterColorsDbscan samples epsCl).labels
          (clusterColorsDbscan samples epsCl).clusterInfo (some c) dbscanEps).clusterInfo
        i j) := by
  have hlen := dbscan_labels_length samples epsCl
  have h := mergeClusters_chain (clusterColorsDbscan samples epsCl).labels
    (clusterColorsDbscan samples epsCl).clusterInfo c dbscanEps
    (dbscan_keys_nodup samples epsCl) hc (by rw [hlen]; exact hn)
    (by rw [hlen]; exact hdiv)
  rw [hlen] at h
  exact ⟨h.2, fun hgt => mergeChain_stuck h.2 hgt⟩

/-- Witness for `mergeClusters_capacity_bound`: two samples, capacity 2. -/
theorem mergeClusters_capacity_bound_witness :
    (0 : Int) < 2 ∧
    ([⟨(0, 0, 0), (0, 0, 0)⟩, ⟨(0, 0, 0), (0, 0, 0)⟩] : List SampleC).length ≠ 0 ∧
    (((([⟨(0, 0, 0), (0, 0, 0)⟩, ⟨(0, 0, 0), (0, 0, 0)⟩] : List SampleC).length : Int) % 2) = 0) ∧
    MergeChain 2 ((max 8 (16 * (6 / 5))) ^ 2)
      ((([⟨(0, 0, 0), (0, 0, 0)⟩, ⟨(0, 0, 0), (0, 0, 0)⟩] : List SampleC).length : Int) / 2)
      ((clusterColorsDbscan [⟨(0, 0, 0), (0, 0, 0)⟩, ⟨(0, 0, 0), (0, 0, 0)⟩] 16).labels,
       (clusterColorsDbscan [⟨(0, 0, 0), (0, 0, 0)⟩, ⟨(0, 0, 0), (0, 0, 0)⟩] 16).clusterInfo)
      ((mergeClustersToExpectedCount
          (clusterColorsDbscan [⟨(0, 0, 0), (0, 0, 0)⟩, ⟨(0, 0, 0), (0, 0, 0)⟩] 16).labels
          (clusterColorsDbscan [⟨(0, 0, 0), (0, 0, 0)⟩, ⟨(0, 0, 0), (0, 0, 0)⟩] 16).clusterInfo
          (some 2) (some 16)).labels,
       (mergeClustersToExpectedCount
          (clusterColorsDbscan [⟨(0, 0, 0), (0, 0, 0)⟩, ⟨(0, 0, 0), (0, 0, 0)⟩] 16).labels
          (clusterColorsDbscan [⟨(0, 0, 0), (0, 0, 0)⟩, ⟨(0, 0, 0), (0, 0, 0)⟩] 16).clusterInfo
          (some 2) (some 16)).clusterInfo)
      (mergeClustersToExpectedCount
        (clusterColorsDbscan [⟨(0, 0, 0), (0, 0, 0)⟩, ⟨(0, 0, 0), (0, 0, 0)⟩] 16).labels
        (clusterColorsDbscan [⟨(0, 0, 0), (0, 0, 0)⟩, ⟨(0, 0, 0), (0, 0, 0)⟩] 16).clusterInfo
        (some 2) (some 16)).merges :=
  ⟨by decide, by decide, by decide,
    (mergeClusters_capacity_bound [⟨(0, 0, 0), (0, 0, 0)⟩, ⟨(0, 0, 0), (0, 0, 0)⟩] 16 2
      (some 16) (by decide) (by decide) (by decide)).1⟩

/-- `getD` after setting a different index. -/
theorem getD_set_ne {l : List Int} {i j : ℕ} {v d : Int} (h : i ≠ j) :
    (l.set i v).getD j d = l.getD j d := by
  rw [List.getD_eq_getElem?_getD, List.getD_eq_getElem?_getD, List.getElem?_set_ne h]

/-- `getD` after setting the same index (in range). -/
theorem getD_set_self {l : List Int} {i : ℕ} {v d : Int} (h : i < l.length) :
    (l.set i v).getD i d = v := by
  rw [List.getD_eq_getElem?_getD, List.getElem?_set_self h]
  rfl

/-- The scan step only writes the value `cid`. -/
theorem scanIdx_values (labs : List (ℚ × ℚ × ℚ)) (eps : ℚ) (cid p : ℕ) :
    ∀ (idxs : List ℕ) (labels : List Int) (x : Int),
      x ∈ (scanIdx labs eps cid p idxs labels).1 → x ∈ labels ∨ x = (cid : Int) := by
  intro idxs
  induction idxs with
  | nil => intro labels x hx; exact Or.inl hx
  | cons j rest ih =>
    intro labels x hx
    unfold scanIdx at hx
    by_cases h1 : labels.getD j (-1) ≠ -1
    · rw [if_pos h1] at hx; exact ih labels x hx
    · rw [if_neg h1] at hx
      by_cases h2 : sqrtLe (sqDist3 (labs.getD p (0, 0, 0)) (labs.getD j (0, 0, 0))) eps
      · rw [if_pos h2] at hx
        dsimp only at hx
        rcases ih _ x hx with hmem | hcid
        · rcases List.mem_or_eq_of_mem_set hmem with h | h
          · exact Or.inl h
          · exact Or.inr h
        · exact Or.inr hcid
      · rw [if_neg h2] at hx; exact ih labels x hx

/-- The flood-fill loop only writes the value `cid`. -/
theorem floodLoop_values (labs : List (ℚ × ℚ × ℚ)) (eps : ℚ) (cid : ℕ) :
    ∀ (fuel : ℕ) (labels : List Int) (queue : List ℕ) (x : Int),
      x ∈ floodLoop labs eps cid fuel labels queue → x ∈ labels ∨ x = (cid : Int) := by
  intro fuel
  induction fuel with
  | zero => intro labels queue x hx; exact Or.inl hx
  | succ fuel ih =>
    intro labels queue x hx
    cases queue with
    | nil => exact Or.inl hx
    | cons p rest =>
      unfold floodLoop at hx
      dsimp only at hx
      rcases ih _ _ x hx with hmem | hcid
      · exact scanIdx_values labs eps cid p _ labels x hmem
      · exact Or.inr hcid

/-- `cid` never decreases across the DBSCAN outer loop. -/
theorem assignLabels_cid_mono (labs : List (ℚ × ℚ × ℚ)) (eps : ℚ) :
    ∀ (idxs : List ℕ) (cid : ℕ) (labels : List Int),
      cid ≤ (assignLabels labs eps idxs cid labels).2 := by
  intro idxs
  induction idxs with
  | nil => intro cid labels; exact le_refl _
  | cons i rest ih =>
    intro cid labels
    unfold assignLabels
    by_cases h1 : labels.getD i (-1) ≠ -1
    · rw [if_pos h1]; exact ih cid labels
    · rw [if_neg h1]
      exact le_trans (Nat.le_succ cid) (ih (cid + 1) _)

/-- Every label the DBSCAN outer loop produces is `-1` or a cluster id
below the final `cid`. -/
theorem assignLabels_values (labs : List (ℚ × ℚ × ℚ)) (eps : ℚ) :
    ∀ (idxs : List ℕ) (cid : ℕ) (labels : List Int),
      (∀ x ∈ labels, x = -1 ∨ ∃ k, k < cid ∧ x = Int.ofNat k) →
      ∀ x ∈ (assignLabels labs eps idxs cid labels).1,
        x = -1 ∨ ∃ k, k < (assignLabels labs eps idxs cid labels).2 ∧ x = Int.ofNat k := by
  intro idxs
  induction idxs with
  | nil => intro cid labels h x hx; exact h x hx
  | cons i rest ih =>
    intro cid labels h x hx
    unfold assignLabels at hx ⊢
    by_cases h1 : labels.getD i (-1) ≠ -1
    · rw [if_pos h1] at hx ⊢
      exact ih cid labels h x hx
    · rw [if_neg h1] at hx ⊢
      refine ih (cid + 1) _ ?_ x hx
      intro y hy
      rcases floodLoop_values labs eps cid _ _ _ y hy with hmem | hcid
      · rcases List.mem_or_eq_of_mem_set hmem with hm | hm
        · rcases h y hm with h' | ⟨k, hk, h'⟩
          · exact Or.inl h'
          · exact Or.inr ⟨k, Nat.lt_succ_of_lt hk, h'⟩
        · exact Or.inr ⟨cid, Nat.lt_succ_self cid, hm⟩
      · exact Or.inr ⟨cid, Nat.lt_succ_self cid, hcid⟩

/-- The scan step never erases a label. -/
theorem scanIdx_keeps (labs : List (ℚ × ℚ × ℚ)) (eps : ℚ) (cid p : ℕ) :
    ∀ (idxs : List ℕ) (labels : List Int) (i : ℕ),
      labels.getD i (-1) ≠ -1 →
      (scanIdx labs eps cid p idxs labels).1.getD i (-1) ≠ -1 := by
  intro idxs
  induction idxs with
  | nil => intro labels i h; exact h
  | cons j rest ih =>
    intro labels i h
    unfold scanIdx
    by_cases h1 : labels.getD j (-1) ≠ -1
    · rw [if_pos h1]; exact ih labels i h
    · rw [if_neg h1]
      by_cases h2 : sqrtLe (sqDist3 (labs.getD p (0, 0, 0)) (labs.getD j (0, 0, 0))) eps
      · rw [if_pos h2]
        dsimp only
        refine ih _ i ?_
        have hj : labels.getD j (-1) = -1 := not_not.mp h1
        have hij : j ≠ i := by
          intro he
          rw [he] at hj
          exact h hj
        rw [getD_set_ne hij]
        exact h
      · rw [if_neg h2]; exact ih labels i h

/-- The flood-fill loop never erases a label. -/
theorem floodLoop_keeps (labs : List (ℚ × ℚ × ℚ)) (eps : ℚ) (cid : ℕ) :
    ∀ (fuel : ℕ) (labels : List Int) (queue : List ℕ) (i : ℕ),
      labels.getD i (-1) ≠ -1 →
      (floodLoop labs eps cid fuel labels queue).getD i (-1) ≠ -1 := by
  intro fuel
  induction fuel with
  | zero => intro labels queue i h; exact h
  | succ fuel ih =>
    intro labels queue i h
    cases queue with
    | nil => exact h
    | cons p rest =>
      unfold floodLoop
      dsimp only
      exact ih _ _ i (scanIdx_keeps labs eps cid p _ labels i h)

/-- The DBSCAN outer loop never erases a label. -/
theorem assignLabels_keeps (labs : List (ℚ × ℚ × ℚ)) (eps : ℚ) :
    ∀ (idxs : List ℕ) (cid : ℕ) (labels : List Int) (i : ℕ),
      labels.getD i (-1) ≠ -1 →
      (assignLabels labs eps idxs cid labels).1.getD i (-1) ≠ -1 := by
  intro idxs
  induction idxs with
  | nil => intro cid labels i h; exact h
  | cons j rest ih =>
    intro cid labels i h
    unfold assignLabels
    by_cases h1 : labels.getD j (-1) ≠ -1
    · rw [if_pos h1]; exact ih cid labels i h
    · rw [if_neg h1]
      refine ih (cid + 1) _ i ?_
      refine floodLoop_keeps labs eps cid _ _ _ i ?_
      have hj : labels.getD j (-1) = -1 := not_not.mp h1
      have hij : j ≠ i := by
        intro he
        rw [he] at hj
        exact h hj
      rw [getD_set_ne hij]
      exact h

/-- After the DBSCAN outer loop has visited an index (within range), that
index carries a real label. -/
theorem assignLabels_processed (labs : List (ℚ × ℚ × ℚ)) (eps : ℚ) :
    ∀ (idxs : List ℕ) (cid : ℕ) (labels : List Int) (i : ℕ),
      i ∈ idxs → i < labels.length →
      (assignLabels labs eps idxs cid labels).1.getD i (-1) ≠ -1 := by
  intro idxs
  induction idxs with
  | nil => intro cid labels i h; simp at h
  | cons j rest ih =>
    intro cid labels i hmem hlt
    unfold assignLabels
    by_cases h1 : labels.getD j (-1) ≠ -1
    · rw [if_pos h1]
      rcases List.mem_cons.mp hmem with rfl | hmem'
      · exact assignLabels_keeps labs eps rest cid labels i h1
      · exact ih cid labels i hmem' hlt
    · rw [if_neg h1]
      rcases List.mem_cons.mp hmem with rfl | hmem'
      · refine assignLabels_keeps labs eps rest (cid + 1) _ i ?_
        refine floodLoop_keeps labs eps cid _ _ _ i ?_
        rw [getD_set_self hlt]
        exact fun hc => by exact_mod_cast hc
      · refine ih (cid + 1) _ i hmem' ?_
        rw [floodLoop_length, List.length_set]
        exact hlt

/-- Sums over a pointwise-split map split. -/
theorem sum_map_add_split (K : List Int) (A B : Int → ℕ) :
    (K.map fun k => A k + B k).sum = (K.map A).sum + (K.map B).sum := by
  induction K with
  | nil => rfl
  | cons k Ks ih =>
    simp only [List.map_cons, List.sum_cons, ih]
    omega

/-- An indicator sums to zero off its support. -/
theorem sum_map_indicator_zero (x : Int) :
    ∀ (K : List Int), x ∉ K → (K.map fun k => if x = k then 1 else 0).sum = 0 := by
  intro K
  induction K with
  | nil => intro _; rfl
  | cons k Ks ih =>
    intro hx
    simp only [List.map_cons, List.sum_cons]
    rw [if_neg (fun he => hx (by rw [he]; exact List.mem_cons_self k Ks)),
      ih (fun hm => hx (List.mem_cons_of_mem _ hm))]

/-- An indicator over a nodup list containing its point sums to one. -/
theorem sum_map_indicator_one (x : Int) :
    ∀ (K : List Int), K.Nodup → x ∈ K → (K.map fun k => if x = k then 1 else 0).sum = 1 := by
  intro K
  induction K with
  | nil => intro _ h; simp at h
  | cons k Ks ih =>
    intro hnd hx
    rw [List.nodup_cons] at hnd
    simp only [List.map_cons, List.sum_cons]
    rcases List.mem_cons.mp hx with rfl | hx'
    · rw [if_pos rfl, sum_map_indicator_zero x Ks hnd.1]
    · rw [if_neg (fun he => hnd.1 (by rw [← he]; exact hx')), ih hnd.2 hx']

/-- Partitioning a list by a key function whose range lies in a nodup key
list conserves its length. -/
theorem partition_length (K : List Int) (hK : K.Nodup) :
    ∀ (lst : List ℕ) (g : ℕ → Int), (∀ i ∈ lst, g i ∈ K) →
      (K.map fun k => (lst.filter fun i => decide (g i = k)).length).sum = lst.length := by
  intro lst
  induction lst with
  | nil =>
    intro g _
    have : (K.map fun k => (([] : List ℕ).filter fun i => decide (g i = k)).length) =
        K.map fun _ => 0 := List.map_congr_left fun k _ => rfl
    rw [this]
    induction K with
    | nil => rfl
    | cons k Ks ihK => simpa using ihK (by simpa using hK.of_cons) 
  | cons x rest ih =>
    intro g hg
    have hsplit : ∀ k ∈ K, ((x :: rest).filter fun i => decide (g i = k)).length =
        (if g x = k then 1 else 0) + (rest.filter fun i => decide (g i = k)).length := by
      intro k _
      rw [List.filter_cons]
      by_cases h : g x = k
      · rw [if_pos (by simp [h]), if_pos h, List.length_cons]
        omega
      · rw [if_neg (by simp [h]), if_neg h]
        omega
    rw [List.map_congr_left hsplit, sum_map_add_split,
      sum_map_indicator_one (g x) K hK (hg x (List.mem_cons_self x rest)),
      ih g (fun i hi => hg i (List.mem_cons_of_mem _ hi)), List.length_cons]
    omega

/-- `sumCounts` of the built cluster map as a sum of member-filter
lengths. -/
theorem sumCounts_buildClusterInfo (samples : List SampleC) (labels : List Int) (cid : ℕ) :
    sumCounts (buildClusterInfo samples labels cid) =
      (((List.range cid).map fun k => Int.ofNat k).map fun kk =>
        ((List.range samples.length).filter fun i =>
          decide (labels.getD i (-1) = kk)).length).sum := by
  unfold sumCounts buildClusterInfo
  rw [List.map_map, List.map_map]
  rfl

/-- The clustering stage's own conservation facts: every emitted label is
a key of the provisional cluster map, and the cluster member counts sum to
the number of samples. -/
theorem dbscan_label_facts (samples : List SampleC) (eps : ℚ) :
    (∀ x ∈ (clusterColorsDbscan samples eps).labels,
      (List.lookup x (clusterColorsDbscan samples eps).clusterInfo).isSome) ∧
    sumCounts (clusterColorsDbscan samples eps).clusterInfo = samples.length := by
  unfold clusterColorsDbscan
  by_cases h : samples.length = 0
  · rw [if_pos h]
    refine ⟨fun x hx => by simp at hx, ?_⟩
    simpa [sumCounts] using h.symm
  · rw [if_neg h]
    dsimp only
    have hval := assignLabels_values (samples.map (·.lab)) eps (List.range samples.length) 0
      (List.replicate samples.length (-1))
      (fun x hx => Or.inl (List.eq_of_mem_replicate hx))
    have hlen : (assignLabels (samples.map (·.lab)) eps (List.range samples.length) 0
        (List.replicate samples.length (-1))).1.length = samples.length := by
      rw [assignLabels_length, List.length_replicate]
    have hmemfact : ∀ x ∈ (assignLabels (samples.map (·.lab)) eps (List.range samples.length) 0
        (List.replicate samples.length (-1))).1,
        ∃ k, k < (assignLabels (samples.map (·.lab)) eps (List.range samples.length) 0
          (List.replicate samples.length (-1))).2 ∧ x = Int.ofNat k := by
      intro x hx
      rcases hval x hx with hneg | hk
      · exfalso
        obtain ⟨pos, hpos, hget⟩ := List.mem_iff_getElem.mp hx
        have hposn : pos < samples.length := by rw [← hlen]; exact hpos
        have hne := assignLabels_processed (samples.map (·.lab)) eps (List.range samples.length)
          0 (List.replicate samples.length (-1)) pos (List.mem_range.mpr hposn)
          (by rwa [List.length_replicate])
        rw [List.getD_eq_getElem?_getD, List.getElem?_eq_getElem hpos] at hne
        exact hne (by rw [Option.getD_some, hget, hneg])
      · exact hk
    constructor
    · intro x hx
      obtain ⟨k, hk, rfl⟩ := hmemfact x hx
      apply lookup_isSome_iff.mpr
      rw [buildClusterInfo_keys]
      exact List.mem_map.mpr ⟨k, List.mem_range.mpr hk, rfl⟩
    · rw [sumCounts_buildClusterInfo]
      have hKnd : (((List.range (assignLabels (samples.map (·.lab)) eps
          (List.range samples.length) 0 (List.replicate samples.length (-1))).2).map
          fun k => Int.ofNat k)).Nodup :=
        List.Nodup.map (fun a b hab => Int.ofNat.inj hab) (List.nodup_range _)
      have hcov : ∀ i ∈ List.range samples.length,
          (assignLabels (samples.map (·.lab)) eps (List.range samples.length) 0
            (List.replicate samples.length (-1))).1.getD i (-1) ∈
          ((List.range (assignLabels (samples.map (·.lab)) eps
            (List.range samples.length) 0 (List.replicate samples.length (-1))).2).map
            fun k => Int.ofNat k) := by
        intro i hi
        have hin : i < (assignLabels (samples.map (·.lab)) eps (List.range samples.length) 0
            (List.replicate samples.length (-1))).1.length := by
          rw [hlen]; exact List.mem_range.mp hi
        have hmem : (assignLabels (samples.map (·.lab)) eps (List.range samples.length) 0
            (List.replicate samples.length (-1))).1.getD i (-1) ∈
            (assignLabels (samples.map (·.lab)) eps (List.range samples.length) 0
              (List.replicate samples.length (-1))).1 := by
          rw [List.getD_eq_getElem?_getD, List.getElem?_eq_getElem hin, Option.getD_some]
          exact List.getElem_mem hin
        obtain ⟨k, hk, heq⟩ := hmemfact _ hmem
        rw [heq]
        exact List.mem_map.mpr ⟨k, List.mem_range.mpr hk, rfl⟩
      have hp := partition_length _ hKnd (List.range samples.length)
        (fun i => (assignLabels (samples.map (·.lab)) eps (List.range samples.length) 0
          (List.replicate samples.length (-1))).1.getD i (-1)) hcov
      rw [List.length_range] at hp
      exact hp

/-- The merge loop keeps every label a live key and conserves the total
member count. -/
theorem mergeLoop_invariant (cap : Int) (md : ℚ) (expected : Int) :
    ∀ (fuel : ℕ) (labels : List Int) (m : List (Int × ClusterC)) (acc : List MergeRec),
      (m.map Prod.fst).Nodup →
      (∀ x ∈ labels, (List.lookup x m).isSome) →
      (∀ x ∈ (mergeLoop cap md expected fuel (labels, m, acc)).1,
        (List.lookup x (mergeLoop cap md expected fuel (labels, m, acc)).2.1).isSome) ∧
      sumCounts (mergeLoop cap md expected fuel (labels, m, acc)).2.1 = sumCounts m := by
  intro fuel
  induction fuel with
  | zero => intro labels m acc _ hlab; exact ⟨hlab, rfl⟩
  | succ fuel ih =>
    intro labels m acc hnd hlab
    by_cases hcond : (m.length : Int) > expected
    · cases hfb : findBest cap md m with
      | none =>
        have heq : mergeLoop cap md expected (fuel + 1) (labels, m, acc) = (labels, m, acc) := by
          unfold mergeLoop
          rw [if_pos hcond, hfb]
        rw [heq]
        exact ⟨hlab, rfl⟩
      | some bb =>
        obtain ⟨helig, hlt, hdq, hmn⟩ := findBest_some hnd hfb
        obtain ⟨hneq, a, b, ha, hb, hcap2, hd2⟩ := helig
        obtain ⟨heff, hnd', hsum', hlablen⟩ := @mergeInto_effect labels _ _ _ _ _ hnd ha hb hneq
        have hstep : mergeLoop cap md expected (fuel + 1) (labels, m, acc) =
            mergeLoop cap md expected fuel
              ((mergeInto labels m bb.keep bb.drop).1,
               (mergeInto labels m bb.keep bb.drop).2, acc ++ [bb]) := by
          conv_lhs => rw [mergeLoop]
          rw [if_pos hcond, hfb]
        have hlab' : ∀ x ∈ (mergeInto labels m bb.keep bb.drop).1,
            (List.lookup x (mergeInto labels m bb.keep bb.drop).2).isSome := by
          intro x hx
          obtain ⟨hl', hkeeprec, hdroprec, hframe, hlen1⟩ := heff
          rw [hl'] at hx
          obtain ⟨y, hy, hxy⟩ := List.mem_map.mp hx
          obtain ⟨a', b', c', _, _, hkc, _, _, _⟩ := hkeeprec
          by_cases hyd : y = bb.drop
          · rw [← hxy]
            rw [if_pos hyd, hkc]
            rfl
          · rw [← hxy]
            rw [if_neg hyd]
            by_cases hyk : y = bb.keep
            · rw [hyk, hkc]; rfl
            · rw [hframe y hyk hyd]
              exact hlab y hy
        obtain ⟨ih1, ih2⟩ := ih _ _ (acc ++ [bb]) hnd' hlab'
        rw [hstep]
        exact ⟨ih1, ih2.trans hsum'⟩
    · have heq : mergeLoop cap md expected (fuel + 1) (labels, m, acc) = (labels, m, acc) := by
        unfold mergeLoop
        rw [if_neg hcond]
      rw [heq]
      exact ⟨hlab, rfl⟩

/-- The reconciler keeps every label a live key and conserves the total
member count, for any capacity and epsilon. -/
theorem mergeClusters_invariant (labelsIn : List Int) (m : List (Int × ClusterC))
    (capacity : Option Int) (dbscanEps : Option ℚ)
    (hnd : (m.map Prod.fst).Nodup)
    (hlab : ∀ x ∈ labelsIn, (List.lookup x m).isSome) :
    (∀ x ∈ (mergeClustersToExpectedCount labelsIn m capacity dbscanEps).labels,
      (List.lookup x
        (mergeClustersToExpectedCount labelsIn m capacity dbscanEps).clusterInfo).isSome) ∧
    sumCounts (mergeClustersToExpectedCount labelsIn m capacity dbscanEps).clusterInfo =
      sumCounts m := by
  cases capacity with
  | none => exact ⟨hlab, rfl⟩
  | some c =>
    by_cases hcle : c ≤ 0
    · have heq : mergeClustersToExpectedCount labelsIn m (some c) dbscanEps =
          ⟨labelsIn, m, [], none⟩ := by
        simp only [mergeClustersToExpectedCount]
        rw [if_pos hcle]
      rw [heq]
      exact ⟨hlab, rfl⟩
    · by_cases h0 : labelsIn.length = 0
      · have heq : mergeClustersToExpectedCount labelsIn m (some c) dbscanEps =
            ⟨labelsIn, m, [], none⟩ := by
          simp only [mergeClustersToExpectedCount]
          rw [if_neg hcle, if_pos h0]
        rw [heq]
        exact ⟨hlab, rfl⟩
      · by_cases hmod : (labelsIn.length : Int) % c ≠ 0
        · have heq : mergeClustersToExpectedCount labelsIn m (some c) dbscanEps =
              ⟨labelsIn, m, [], none⟩ := by
            simp only [mergeClustersToExpectedCount]
            rw [if_neg hcle, if_neg h0, if_pos hmod]
          rw [heq]
          exact ⟨hlab, rfl⟩
        · simp only [mergeClustersToExpectedCount]
          rw [if_neg hcle, if_neg h0, if_neg hmod]
          dsimp only
          exact mergeLoop_invariant c _ _ m.length labelsIn m [] hnd hlab

/-- C10: after reconciling the clustering's output, every entry of the
returned label array is a key of the returned cluster map and the member
counts of the returned clusters sum to the number of input samples —
merging neither loses nor duplicates samples. -/
theorem reconcile_conserves_samples (samples : List SampleC) (epsCl : ℚ)
    (capacity : Option Int) (dbscanEps : Option ℚ) :
    (∀ x ∈ (mergeClustersToExpectedCount (clusterColorsDbscan samples epsCl).labels
        (clusterColorsDbscan samples epsCl).clusterInfo capacity dbscanEps).labels,
      (List.lookup x (mergeClustersToExpectedCount (clusterColorsDbscan samples epsCl).labels
        (clusterColorsDbscan samples epsCl).clusterInfo capacity dbscanEps).clusterInfo).isSome) ∧
    sumCounts (mergeClustersToExpectedCount (clusterColorsDbscan samples epsCl).labels
      (clusterColorsDbscan samples epsCl).clusterInfo capacity dbscanEps).clusterInfo =
      samples.length := by
  obtain ⟨hlab, hsum⟩ := dbscan_label_facts samples epsCl
  obtain ⟨h1, h2⟩ := mergeClusters_invariant _ _ capacity dbscanEps
    (dbscan_keys_nodup samples epsCl) hlab
  exact ⟨h1, h2.trans hsum⟩

/-- Full specification of the flood-fill scan step over a nodup, in-range
index list: (i) entries not pushed are untouched; (ii) every pushed index
was unlabeled, is now labeled `cid`, and lies within `eps` of `p`;
(iii) every unlabeled in-range index within `eps` of `p` gets pushed. -/
theorem scanIdx_spec (labs : List (ℚ × ℚ × ℚ)) (eps : ℚ) (cid p : ℕ) :
    ∀ (idxs : List ℕ) (labels : List Int), idxs.Nodup → (∀ i ∈ idxs, i < labels.length) →
      (∀ i, i ∉ (scanIdx labs eps cid p idxs labels).2 →
        (scanIdx labs eps cid p idxs labels).1.getD i (-1) = labels.getD i (-1)) ∧
      (∀ j ∈ (scanIdx labs eps cid p idxs labels).2, j ∈ idxs ∧
        labels.getD j (-1) = -1 ∧
        (scanIdx labs eps cid p idxs labels).1.getD j (-1) = (cid : Int) ∧
        sqrtLe (sqDist3 (labs.getD p (0, 0, 0)) (labs.getD j (0, 0, 0))) eps) ∧
      (∀ j ∈ idxs, labels.getD j (-1) = -1 →
        sqrtLe (sqDist3 (labs.getD p (0, 0, 0)) (labs.getD j (0, 0, 0))) eps →
        j ∈ (scanIdx labs eps cid p idxs labels).2) := by
  intro idxs
  induction idxs with
  | nil =>
    intro labels _ _
    refine ⟨fun i _ => rfl, fun j hj => absurd hj (List.not_mem_nil j), fun j hj => absurd hj (List.not_mem_nil j)⟩
  | cons j rest ih =>
    intro labels hnd hbnd
    rw [List.nodup_cons] at hnd
    unfold scanIdx
    by_cases h1 : labels.getD j (-1) ≠ -1
    · rw [if_pos h1]
      obtain ⟨ihA, ihB, ihC⟩ := ih labels hnd.2 (fun i hi => hbnd i (List.mem_cons_of_mem _ hi))
      refine ⟨ihA, ?_, ?_⟩
      · intro j' hj'
        obtain ⟨hm, hrest⟩ := ihB j' hj'
        exact ⟨List.mem_cons_of_mem _ hm, hrest⟩
      · intro j' hj' hlab hdist
        rcases List.mem_cons.mp hj' with rfl | hj''
        · exact absurd hlab h1
        · exact ihC j' hj'' hlab hdist
    · rw [if_neg h1]
      have hjlab : labels.getD j (-1) = -1 := not_not.mp h1
      by_cases h2 : sqrtLe (sqDist3 (labs.getD p (0, 0, 0)) (labs.getD j (0, 0, 0))) eps
      · rw [if_pos h2]
        dsimp only
        have hjlen : j < labels.length := hbnd j (List.mem_cons_self j rest)
        obtain ⟨ihA, ihB, ihC⟩ := ih (labels.set j (cid : Int)) hnd.2
          (fun i hi => by rw [List.length_set]; exact hbnd i (List.mem_cons_of_mem _ hi))
        have hjnotpush : j ∉ (scanIdx labs eps cid p rest (labels.set j (cid : Int))).2 :=
          fun hc => hnd.1 (ihB j hc).1
        refine ⟨?_, ?_, ?_⟩
        · intro i hi
          have hij : i ≠ j := fun he => hi (by rw [he]; exact List.mem_cons_self _ _)
          have hnp : i ∉ (scanIdx labs eps cid p rest (labels.set j (cid : Int))).2 :=
            fun hc => hi (List.mem_cons_of_mem _ hc)
          rw [ihA i hnp, getD_set_ne (fun he => hij he.symm)]
        · intro j' hj'
          rcases List.mem_cons.mp hj' with rfl | hj''
          · refine ⟨List.mem_cons_self _ _, hjlab, ?_, h2⟩
            rw [ihA j' hjnotpush, getD_set_self hjlen]
          · obtain ⟨hm, hlab', hval', hdist'⟩ := ihB j' hj''
            have hj'j : j' ≠ j := fun he => hnd.1 (he ▸ hm)
            refine ⟨List.mem_cons_of_mem _ hm, ?_, hval', hdist'⟩
            rw [← getD_set_ne (l := labels) (v := (cid : Int)) (fun he => hj'j he.symm)]
            exact hlab'
        · intro j' hj' hlab hdist
          rcases List.mem_cons.mp hj' with rfl | hj''
          · exact List.mem_cons_self _ _
          · have hj'j : j' ≠ j := fun he => hnd.1 (he ▸ hj'')
            refine List.mem_cons_of_mem _ (ihC j' hj'' ?_ hdist)
            rw [getD_set_ne (fun he => hj'j he.symm)]
            exact hlab
      · rw [if_neg h2]
        obtain ⟨ihA, ihB, ihC⟩ := ih labels hnd.2 (fun i hi => hbnd i (List.mem_cons_of_mem _ hi))
        refine ⟨ihA, ?_, ?_⟩
        · intro j' hj'
          obtain ⟨hm, hrest⟩ := ihB j' hj'
          exact ⟨List.mem_cons_of_mem _ hm, hrest⟩
        · intro j' hj' hlab hdist
          rcases List.mem_cons.mp hj' with rfl | hj''
          · exact absurd hdist h2
          · exact ihC j' hj'' hlab hdist

/-- Each pushed index turns exactly one `-1` entry into `cid`. -/
theorem scanIdx_count (labs : List (ℚ × ℚ × ℚ)) (eps : ℚ) (cid p : ℕ) :
    ∀ (idxs : List ℕ) (labels : List Int), (∀ i ∈ idxs, i < labels.length) →
      (scanIdx labs eps cid p idxs labels).1.count (-1) +
        (scanIdx labs eps cid p idxs labels).2.length = labels.count (-1) := by
  intro idxs
  induction idxs with
  | nil => intro labels _; rfl
  | cons j rest ih =>
    intro labels hbnd
    unfold scanIdx
    by_cases h1 : labels.getD j (-1) ≠ -1
    · rw [if_pos h1]; exact ih labels (fun i hi => hbnd i (List.mem_cons_of_mem _ hi))
    · rw [if_neg h1]
      have hjlab : labels.getD j (-1) = -1 := not_not.mp h1
      by_cases h2 : sqrtLe (sqDist3 (labs.getD p (0, 0, 0)) (labs.getD j (0, 0, 0))) eps
      · rw [if_pos h2]
        dsimp only
        have hjlen : j < labels.length := hbnd j (List.mem_cons_self j rest)
        have hih := ih (labels.set j (cid : Int))
          (fun i hi => by rw [List.length_set]; exact hbnd i (List.mem_cons_of_mem _ hi))
        have hget : labels[j] = -1 := by
          rw [List.getD_eq_getElem?_getD, List.getElem?_eq_getElem hjlen,
            Option.getD_some] at hjlab
          exact hjlab
        have hcount := List.count_set (cid : Int) (-1) labels j hjlen
        rw [show (labels[j] == (-1 : Int)) = true from by simp [hget],
          show (((cid : ℕ) : Int) == (-1 : Int)) = false from by simp] at hcount
        have hpos : 0 < labels.count (-1) := by
          apply List.count_pos_iff.mpr
          rw [← hget]
          exact List.getElem_mem hjlen
        simp only [if_pos rfl] at hcount
        norm_num at hcount
        rw [List.length_cons]
        omega
      · rw [if_neg h2]; exact ih labels (fun i hi => hbnd i (List.mem_cons_of_mem _ hi))

/-- The cast of a cluster id is never the sentinel `-1`. -/
theorem cid_ne_neg_one (cid : ℕ) : ((cid : ℕ) : Int) ≠ -1 := by omega

/-- Invariant theorem for the flood-fill loop.  Relative to a snapshot
`l₀` (the labels when the seed `s` of the fresh id `cid` was planted) in
which `cid` is unused and every neighbor of a labeled sample is labeled:
the loop only turns `-1` entries into `cid`, every sample it labels `cid`
is ε-connected to the seed, and at termination every neighbor of a
`cid`-labeled sample is labeled.  The measure `2·(#unlabeled) + |queue|`
strictly decreases each round, so fuel `2n+1` suffices from the seed
state. -/
theorem floodLoop_spec (labs : List (ℚ × ℚ × ℚ)) (eps : ℚ) (cid : ℕ) (l₀ : List Int) (s : ℕ)
    (hold : ∀ u v, epsEdge labs eps u v → l₀.getD u (-1) ≠ -1 → l₀.getD v (-1) ≠ -1) :
    ∀ (fuel : ℕ) (labels : List Int) (queue : List ℕ),
      labels.length = labs.length →
      (∀ i, l₀.getD i (-1) ≠ -1 → labels.getD i (-1) = l₀.getD i (-1)) →
      (∀ i, labels.getD i (-1) ≠ l₀.getD i (-1) → labels.getD i (-1) = (cid : Int)) →
      (∀ p ∈ queue, labels.getD p (-1) = (cid : Int) ∧ p < labs.length) →
      (∀ q, labels.getD q (-1) = (cid : Int) →
        Relation.ReflTransGen (epsEdge labs eps) s q) →
      (∀ q, labels.getD q (-1) = (cid : Int) → q ∉ queue →
        ∀ j, epsEdge labs eps q j → labels.getD j (-1) ≠ -1) →
      2 * labels.count (-1) + queue.length ≤ fuel →
      (∀ i, l₀.getD i (-1) ≠ -1 →
        (floodLoop labs eps cid fuel labels queue).getD i (-1) = l₀.getD i (-1)) ∧
      (∀ i, (floodLoop labs eps cid fuel labels queue).getD i (-1) ≠ l₀.getD i (-1) →
        (floodLoop labs eps cid fuel labels queue).getD i (-1) = (cid : Int)) ∧
      (∀ q, (floodLoop labs eps cid fuel labels queue).getD q (-1) = (cid : Int) →
        Relation.ReflTransGen (epsEdge labs eps) s q) ∧
      (∀ q, (floodLoop labs eps cid fuel labels queue).getD q (-1) = (cid : Int) →
        ∀ j, epsEdge labs eps q j →
          (floodLoop labs eps cid fuel labels queue).getD j (-1) ≠ -1) := by
  intro fuel
  induction fuel with
  | zero =>
    intro labels queue _ h2a h2b _ h4 h5 hfuel
    have hq : queue = [] := List.length_eq_zero.mp (by omega)
    subst hq
    exact ⟨h2a, h2b, h4, fun q hq j hj => h5 q hq (List.not_mem_nil q) j hj⟩
  | succ fuel ih =>
    intro labels queue h1 h2a h2b h3 h4 h5 hfuel
    cases queue with
    | nil =>
      exact ⟨h2a, h2b, h4, fun q hq j hj => h5 q hq (List.not_mem_nil q) j hj⟩
    | cons p rest =>
      have heq : floodLoop labs eps cid (fuel + 1) labels (p :: rest) =
          floodLoop labs eps cid fuel
            (scanIdx labs eps cid p (List.range labs.length) labels).1
            ((scanIdx labs eps cid p (List.range labs.length) labels).2.reverse ++ rest) := by
        conv_lhs => rw [floodLoop]
      rw [heq]
      have hbnd : ∀ i ∈ List.range labs.length, i < labels.length := by
        intro i hi; rw [h1]; exact List.mem_range.mp hi
      obtain ⟨hA, hB, hC⟩ := scanIdx_spec labs eps cid p (List.range labs.length) labels
        (List.nodup_range _) hbnd
      have hpfacts := h3 p (List.mem_cons_self p rest)
      have hpushset : ∀ j ∈ (scanIdx labs eps cid p (List.range labs.length) labels).2,
          labels.getD j (-1) = -1 := fun j hj => (hB j hj).2.1
      refine ih _ _ (by rw [scanIdx_length]; exact h1) ?_ ?_ ?_ ?_ ?_ ?_
      · intro i hi
        have hnp : i ∉ (scanIdx labs eps cid p (List.range labs.length) labels).2 := by
          intro hc
          have hcl := hpushset i hc
          rw [h2a i hi] at hcl
          exact hi hcl
        rw [hA i hnp]
        exact h2a i hi
      · intro i hi
        by_cases hp : i ∈ (scanIdx labs eps cid p (List.range labs.length) labels).2
        · exact (hB i hp).2.2.1
        · rw [hA i hp] at hi ⊢
          exact h2b i hi
      · intro x hx
        rcases List.mem_append.mp hx with hx | hx
        · rw [List.mem_reverse] at hx
          exact ⟨(hB x hx).2.2.1, List.mem_range.mp (hB x hx).1⟩
        · obtain ⟨hxl, hxn⟩ := h3 x (List.mem_cons_of_mem _ hx)
          have hnp : x ∉ (scanIdx labs eps cid p (List.range labs.length) labels).2 := by
            intro hc
            rw [hpushset x hc] at hxl
            exact cid_ne_neg_one cid hxl.symm
          rw [hA x hnp]
          exact ⟨hxl, hxn⟩
      · intro q hq
        by_cases hp : q ∈ (scanIdx labs eps cid p (List.range labs.length) labels).2
        · obtain ⟨hqr, _, _, hqd⟩ := hB q hp
          exact (h4 p hpfacts.1).tail ⟨hpfacts.2, List.mem_range.mp hqr, hqd⟩
        · rw [hA q hp] at hq
          exact h4 q hq
      · intro q hq hqnotin j hj
        by_cases hqp : q = p
        · rw [hqp] at hj
          have hjn : j < labs.length := hj.2.1
          by_cases hjl : labels.getD j (-1) = -1
          · have hjpush := hC j (List.mem_range.mpr hjn) hjl hj.2.2
            rw [(hB j hjpush).2.2.1]
            exact cid_ne_neg_one cid
          · have hnp : j ∉ (scanIdx labs eps cid p (List.range labs.length) labels).2 := by
              intro hc
              exact hjl (hpushset j hc)
            rw [hA j hnp]
            exact hjl
        · have hqpush : q ∉ (scanIdx labs eps cid p (List.range labs.length) labels).2 := by
            intro hc
            exact hqnotin (List.mem_append.mpr (Or.inl (List.mem_reverse.mpr hc)))
          have hqrest : q ∉ rest := fun hc => hqnotin (List.mem_append.mpr (Or.inr hc))
          rw [hA q hqpush] at hq
          have hold5 := h5 q hq (by
            intro hc
            rcases List.mem_cons.mp hc with h | h
            · exact hqp h
            · exact hqrest h) j hj
          by_cases hjp : j ∈ (scanIdx labs eps cid p (List.range labs.length) labels).2
          · rw [(hB j hjp).2.2.1]
            exact cid_ne_neg_one cid
          · rw [hA j hjp]
            exact hold5
      · have hcnt := scanIdx_count labs eps cid p (List.range labs.length) labels hbnd
        rw [List.length_append, List.length_reverse]
        rw [List.length_cons] at hfuel
        omega

/-- ε-adjacency is symmetric. -/
theorem epsEdge_symm {labs : List (ℚ × ℚ × ℚ)} {eps : ℚ} {u v : ℕ}
    (h : epsEdge labs eps u v) : epsEdge labs eps v u := by
  obtain ⟨h1, h2, h3⟩ := h
  refine ⟨h2, h1, ?_⟩
  rw [sqDist3_symm]
  exact h3

/-- Along an ε-chain, a non-sentinel label propagates unchanged (given
that neighbors share labels). -/
theorem conn_label_eq (labs : List (ℚ × ℚ × ℚ)) (eps : ℚ) (l : List Int)
    (hO3 : ∀ u v, epsEdge labs eps u v → l.getD u (-1) ≠ -1 →
      l.getD u (-1) = l.getD v (-1)) :
    ∀ i j, Relation.ReflTransGen (epsEdge labs eps) i j → l.getD i (-1) ≠ -1 →
      l.getD i (-1) = l.getD j (-1) := by
  intro i j h
  induction h with
  | refl => intro _; rfl
  | tail hab hbc ih =>
    intro hne
    have h1 := ih hne
    have h2 := hO3 _ _ hbc (by rw [← h1]; exact hne)
    rw [h1, h2]

/-- ε-connectivity is symmetric. -/
theorem conn_symm {labs : List (ℚ × ℚ × ℚ)} {eps : ℚ} {u v : ℕ}
    (h : Relation.ReflTransGen (epsEdge labs eps) u v) :
    Relation.ReflTransGen (epsEdge labs eps) v u := by
  induction h with
  | refl => exact Relation.ReflTransGen.refl
  | tail hab hbc ih => exact Relation.ReflTransGen.head (epsEdge_symm hbc) ih

/-- Invariant theorem for the DBSCAN outer loop: if ε-neighbors share
labels and equal non-sentinel labels imply ε-connectivity, both facts
survive seeding and flood-filling every remaining index. -/
theorem assignLabels_spec (labs : List (ℚ × ℚ × ℚ)) (eps : ℚ) :
    ∀ (idxs : List ℕ) (cid : ℕ) (labels : List Int),
      (∀ i ∈ idxs, i < labs.length) →
      labels.length = labs.length →
      (∀ u, labels.getD u (-1) = -1 ∨ ∃ k, k < cid ∧ labels.getD u (-1) = (k : Int)) →
      (∀ u v, epsEdge labs eps u v → labels.getD u (-1) ≠ -1 →
        labels.getD u (-1) = labels.getD v (-1)) →
      (∀ u v, labels.getD u (-1) = labels.getD v (-1) → labels.getD u (-1) ≠ -1 →
        Relation.ReflTransGen (epsEdge labs eps) u v) →
      (∀ u v, epsEdge labs eps u v →
        (assignLabels labs eps idxs cid labels).1.getD u (-1) ≠ -1 →
        (assignLabels labs eps idxs cid labels).1.getD u (-1) =
          (assignLabels labs eps idxs cid labels).1.getD v (-1)) ∧
      (∀ u v, (assignLabels labs eps idxs cid labels).1.getD u (-1) =
          (assignLabels labs eps idxs cid labels).1.getD v (-1) →
        (assignLabels labs eps idxs cid labels).1.getD u (-1) ≠ -1 →
        Relation.ReflTransGen (epsEdge labs eps) u v) := by
  intro idxs
  induction idxs with
  | nil => intro cid labels _ _ _ hO3 hO4; exact ⟨hO3, hO4⟩
  | cons i rest ih =>
    intro cid labels hbnd hlen hO2 hO3 hO4
    unfold assignLabels
    by_cases h1 : labels.getD i (-1) ≠ -1
    · rw [if_pos h1]
      exact ih cid labels (fun x hx => hbnd x (List.mem_cons_of_mem _ hx)) hlen hO2 hO3 hO4
    · rw [if_neg h1]
      have hilab : labels.getD i (-1) = -1 := not_not.mp h1
      have hin : i < labs.length := hbnd i (List.mem_cons_self i rest)
      have hilen : i < labels.length := by rw [hlen]; exact hin
      have hnotcid : ∀ u, labels.getD u (-1) ≠ (cid : Int) := by
        intro u hc
        rcases hO2 u with h | ⟨k, hk, h⟩
        · rw [h] at hc; exact cid_ne_neg_one cid hc.symm
        · rw [h] at hc
          have : k = cid := by exact_mod_cast hc
          omega
      have hseedself : (labels.set i (cid : Int)).getD i (-1) = (cid : Int) :=
        getD_set_self hilen
      have honlyseed : ∀ q, (labels.set i (cid : Int)).getD q (-1) = (cid : Int) → q = i := by
        intro q hq
        by_contra hne
        rw [getD_set_ne (fun he => hne he.symm)] at hq
        exact hnotcid q hq
      obtain ⟨RA, RB, RC, RD⟩ := floodLoop_spec labs eps cid labels i
        (fun u v he hu => by rw [← hO3 u v he hu]; exact hu)
        (2 * labs.length + 1) (labels.set i (cid : Int)) [i]
        (by rw [List.length_set]; exact hlen)
        (fun u hu => getD_set_ne (fun he => by rw [he] at hilab; exact hu hilab))
        (fun u hu => by
          by_cases he : u = i
          · rw [he]; exact hseedself
          · exact absurd (getD_set_ne (fun h => he h.symm)) hu)
        (fun p hp => by
          rcases List.mem_cons.mp hp with rfl | habs
          · exact ⟨hseedself, hin⟩
          · exact absurd habs (List.not_mem_nil p))
        (fun q hq => by rw [honlyseed q hq])
        (fun q hq hqn => absurd (honlyseed q hq) (fun he => hqn (he ▸ List.mem_cons_self i [])))
        (by
          have := List.count_le_length (-1 : Int) (labels.set i (cid : Int))
          rw [List.length_set, hlen] at this
          simp only [List.length_cons, List.length_nil]
          omega)
      refine ih (cid + 1) _ (fun x hx => hbnd x (List.mem_cons_of_mem _ hx))
        (by rw [floodLoop_length, List.length_set]; exact hlen) ?_ ?_ ?_
      · intro u
        by_cases hch : (floodLoop labs eps cid (2 * labs.length + 1)
            (labels.set i (cid : Int)) [i]).getD u (-1) = labels.getD u (-1)
        · rw [hch]
          rcases hO2 u with h | ⟨k, hk, h⟩
          · exact Or.inl h
          · exact Or.inr ⟨k, Nat.lt_succ_of_lt hk, h⟩
        · exact Or.inr ⟨cid, Nat.lt_succ_self cid, RB u hch⟩
      · intro u v he hu
        by_cases hcu : (floodLoop labs eps cid (2 * labs.length + 1)
            (labels.set i (cid : Int)) [i]).getD u (-1) = (cid : Int)
        · have hvne := RD u hcu v he
          by_cases hcv : (floodLoop labs eps cid (2 * labs.length + 1)
              (labels.set i (cid : Int)) [i]).getD v (-1) = (cid : Int)
          · rw [hcu, hcv]
          · exfalso
            have hvold : (floodLoop labs eps cid (2 * labs.length + 1)
                (labels.set i (cid : Int)) [i]).getD v (-1) = labels.getD v (-1) := by
              by_contra hne
              exact hcv (RB v hne)
            have hlv : labels.getD v (-1) ≠ -1 := by rw [← hvold]; exact hvne
            have hlu : labels.getD v (-1) = labels.getD u (-1) :=
              hO3 v u (epsEdge_symm he) hlv
            have hlune : labels.getD u (-1) ≠ -1 := by rw [← hlu]; exact hlv
            have := RA u hlune
            rw [this] at hcu
            exact hnotcid u hcu
        · have huold : (floodLoop labs eps cid (2 * labs.length + 1)
              (labels.set i (cid : Int)) [i]).getD u (-1) = labels.getD u (-1) := by
            by_contra hne
            exact hcu (RB u hne)
          rw [huold] at hu ⊢
          have h3 := hO3 u v he hu
          have hlvne : labels.getD v (-1) ≠ -1 := by rw [← h3]; exact hu
          rw [RA v hlvne, ← h3]
      · intro u v heq hu
        by_cases hcu : (floodLoop labs eps cid (2 * labs.length + 1)
            (labels.set i (cid : Int)) [i]).getD u (-1) = (cid : Int)
        · have hcv : (floodLoop labs eps cid (2 * labs.length + 1)
              (labels.set i (cid : Int)) [i]).getD v (-1) = (cid : Int) := by
            rw [← heq]; exact hcu
          exact Relation.ReflTransGen.trans (conn_symm (RC u hcu)) (RC v hcv)
        · have huold : (floodLoop labs eps cid (2 * labs.length + 1)
              (labels.set i (cid : Int)) [i]).getD u (-1) = labels.getD u (-1) := by
            by_contra hne
            exact hcu (RB u hne)
          have hcv : (floodLoop labs eps cid (2 * labs.length + 1)
              (labels.set i (cid : Int)) [i]).getD v (-1) ≠ (cid : Int) := by
            rw [← heq]; exact hcu
          have hvold : (floodLoop labs eps cid (2 * labs.length + 1)
              (labels.set i (cid : Int)) [i]).getD v (-1) = labels.getD v (-1) := by
            by_contra hne
            exact hcv (RB v hne)
          rw [huold] at heq hu
          rw [hvold] at heq
          exact hO4 u v heq hu

/-- `getD` on a replicated sentinel list is the sentinel. -/
theorem getD_replicate (n u : ℕ) : (List.replicate n (-1 : Int)).getD u (-1) = -1 := by
  rw [List.getD_eq_getElem?_getD, List.getElem?_replicate]
  split <;> rfl

/-- A successful `lookup` witnesses membership of the key-value pair. -/
theorem lookup_mem_int {l : List (Int × ClusterC)} {k : Int} {c : ClusterC}
    (h : List.lookup k l = some c) : (k, c) ∈ l := by
  induction l with
  | nil => exact absurd h (by simp [List.lookup])
  | cons e rest ih =>
    obtain ⟨a, b⟩ := e
    simp only [List.lookup] at h
    by_cases hk : k = a
    · rw [beq_iff_eq.mpr hk] at h
      have hb : b = c := Option.some.inj h
      rw [hk, hb]
      exact List.mem_cons_self _ _
    · rw [beq_false_of_ne hk] at h
      exact List.mem_cons_of_mem _ (ih h)

/-- Labels computed by `clusterColorsDbscan` coincide exactly on
ε-connected indices (nonempty-sample case, indices in range). -/
theorem dbscan_single_link (samples : List SampleC) (eps : ℚ) (i j : ℕ)
    (hi : i < samples.length) (hj : j < samples.length) :
    ((clusterColorsDbscan samples eps).labels.getD i (-1) =
      (clusterColorsDbscan samples eps).labels.getD j (-1)) ↔ LabConn samples eps i j := by
  have hn : samples.length ≠ 0 := by omega
  have hlabs : (samples.map (·.lab)).length = samples.length := List.length_map _ _
  obtain ⟨hO3, hO4⟩ := assignLabels_spec (samples.map (·.lab)) eps
    (List.range samples.length) 0 (List.replicate samples.length (-1))
    (fun x hx => by rw [hlabs]; exact List.mem_range.mp hx)
    (by rw [List.length_replicate, hlabs])
    (fun u => Or.inl (getD_replicate _ _))
    (fun u v _ hu => absurd (getD_replicate _ _) hu)
    (fun u v heq hu => absurd (getD_replicate _ _) hu)
  have hres : (clusterColorsDbscan samples eps).labels =
      (assignLabels (samples.map (·.lab)) eps (List.range samples.length) 0
        (List.replicate samples.length (-1))).1 := by
    unfold clusterColorsDbscan
    rw [if_neg hn]
  rw [hres]
  have hiproc := assignLabels_processed (samples.map (·.lab)) eps
    (List.range samples.length) 0 (List.replicate samples.length (-1)) i
    (List.mem_range.mpr hi) (by rw [List.length_replicate]; exact hi)
  constructor
  · intro heq
    exact hO4 i j heq hiproc
  · intro hconn
    exact conn_label_eq _ _ _ hO3 i j hconn hiproc

/-- Every cluster record built by `buildClusterInfo` carries its member
count and the componentwise mean of its members' colors. -/
theorem lookup_buildClusterInfo_eq (samples : List SampleC) (labels : List Int)
    (cid : ℕ) (k : Int) (c : ClusterC)
    (h : List.lookup k (buildClusterInfo samples labels cid) = some c) :
    c.count = (membersOf samples.length labels k).length ∧
    c.center_bgr = meanT ((membersOf samples.length labels k).map
      fun i => (samples.getD i default).bgr) ∧
    c.center_lab = meanT ((membersOf samples.length labels k).map
      fun i => (samples.getD i default).lab) := by
  have hmem : (k, c) ∈ buildClusterInfo samples labels cid := lookup_mem_int h
  unfold buildClusterInfo at hmem
  obtain ⟨k₀, hk₀, heq⟩ := List.mem_map.mp hmem
  have hk : Int.ofNat k₀ = k := congrArg Prod.fst heq
  have hc := congrArg Prod.snd heq
  dsimp only at hc
  rw [← hk, ← hc]
  refine ⟨rfl, ?_, ?_⟩
  · show _ = meanT _
    unfold meanT membersOf
    rw [List.length_map]
  · show _ = meanT _
    unfold meanT membersOf
    rw [List.length_map]

/-- Transport of ε-chains along an index map that preserves Lab colors. -/
theorem conn_map_index (labs labs2 : List (ℚ × ℚ × ℚ)) (eps : ℚ) (f : ℕ → ℕ)
    (hf : ∀ u, u < labs2.length → f u < labs.length ∧
      labs2.getD u (0, 0, 0) = labs.getD (f u) (0, 0, 0)) :
    ∀ i j, Relation.ReflTransGen (epsEdge labs2 eps) i j →
      Relation.ReflTransGen (epsEdge labs eps) (f i) (f j) := by
  intro i j h
  induction h with
  | refl => exact Relation.ReflTransGen.refl
  | tail hab hbc ih =>
    refine Relation.ReflTransGen.tail ih ?_
    obtain ⟨h1, h2, h3⟩ := hbc
    obtain ⟨hb1, hb2⟩ := hf _ h1
    obtain ⟨hc1, hc2⟩ := hf _ h2
    exact ⟨hb1, hc1, by rw [← hb2, ← hc2]; exact h3⟩

/-- Lab color of an entry of a permuted sample list, as the Lab color of
the corresponding entry of the original list. -/
theorem perm_lab_getD (samples : List SampleC) (σ : Equiv.Perm (Fin samples.length))
    (u : ℕ) (hu : u < samples.length) :
    ((List.ofFn fun m => samples.get (σ m)).map (·.lab)).getD u (0, 0, 0) =
      (samples.map (·.lab)).getD ((σ ⟨u, hu⟩ : Fin samples.length) : ℕ) (0, 0, 0) := by
  have h1 : u < ((List.ofFn fun m => samples.get (σ m)).map (·.lab)).length := by
    rw [List.length_map, List.length_ofFn]
    exact hu
  have h2 : ((σ ⟨u, hu⟩ : Fin samples.length) : ℕ) < (samples.map (·.lab)).length := by
    rw [List.length_map]
    exact (σ ⟨u, hu⟩).isLt
  rw [List.getD_eq_getElem _ _ h1, List.getD_eq_getElem _ _ h2,
    List.getElem_map, List.getElem_map, List.getElem_ofFn]
  simp only [List.get_eq_getElem]

/-- ε-chain connectivity in a permuted sample list corresponds, through
the permutation, to ε-chain connectivity in the original list. -/
theorem labConn_perm (samples : List SampleC) (eps : ℚ)
    (σ : Equiv.Perm (Fin samples.length)) (i j : ℕ)
    (hi : i < samples.length) (hj : j < samples.length) :
    LabConn (List.ofFn fun m => samples.get (σ m)) eps i j ↔
      LabConn samples eps ((σ ⟨i, hi⟩ : Fin samples.length) : ℕ)
        ((σ ⟨j, hj⟩ : Fin samples.length) : ℕ) := by
  have hlen2 : ((List.ofFn fun m => samples.get (σ m)).map (·.lab)).length =
      samples.length := by
    rw [List.length_map, List.length_ofFn]
  have hlen1 : (samples.map (·.lab)).length = samples.length := List.length_map _ _
  constructor
  · intro h
    have := conn_map_index (samples.map (·.lab))
      ((List.ofFn fun m => samples.get (σ m)).map (·.lab)) eps
      (fun u => if h : u < samples.length
        then ((σ ⟨u, h⟩ : Fin samples.length) : ℕ) else u)
      (fun u hu => by
        rw [hlen2] at hu
        simp only [dif_pos hu]
        refine ⟨by rw [hlen1]; exact (σ ⟨u, hu⟩).isLt, ?_⟩
        exact perm_lab_getD samples σ u hu)
      i j h
    simp only [dif_pos hi, dif_pos hj] at this
    exact this
  · intro h
    have := conn_map_index ((List.ofFn fun m => samples.get (σ m)).map (·.lab))
      (samples.map (·.lab)) eps
      (fun u => if h : u < samples.length
        then ((σ.symm ⟨u, h⟩ : Fin samples.length) : ℕ) else u)
      (fun u hu => by
        rw [hlen1] at hu
        simp only [dif_pos hu]
        refine ⟨by rw [hlen2]; exact (σ.symm ⟨u, hu⟩).isLt, ?_⟩
        have := perm_lab_getD samples σ ((σ.symm ⟨u, hu⟩ : Fin samples.length) : ℕ)
          (σ.symm ⟨u, hu⟩).isLt
        rw [this]
        have hσ : σ ⟨((σ.symm ⟨u, hu⟩ : Fin samples.length) : ℕ),
            (σ.symm ⟨u, hu⟩).isLt⟩ = ⟨u, hu⟩ := by
          rw [Fin.eta]
          exact Equiv.apply_symm_apply σ _
        rw [hσ])
      _ _ h
    simp only [dif_pos (σ ⟨i, hi⟩).isLt, dif_pos (σ ⟨j, hj⟩).isLt] at this
    have hsi : σ.symm ⟨((σ ⟨i, hi⟩ : Fin samples.length) : ℕ), (σ ⟨i, hi⟩).isLt⟩ =
        ⟨i, hi⟩ := by
      rw [Fin.eta]
      exact Equiv.symm_apply_apply σ _
    have hsj : σ.symm ⟨((σ ⟨j, hj⟩ : Fin samples.length) : ℕ), (σ ⟨j, hj⟩).isLt⟩ =
        ⟨j, hj⟩ := by
      rw [Fin.eta]
      exact Equiv.symm_apply_apply σ _
    rw [hsi, hsj] at this
    exact this

/-- C5: `clusterColorsDbscan` gives two (in-range) samples the same label
iff they are single-link ε-connected in Lab space; every provisional
cluster's count is its member count and its Lab/BGR centroids are the
componentwise arithmetic means of its members' colors; and for every
permutation of the sample list the resulting partition is the same: the
permuted run joins `i` and `j` exactly when the original run joins their
images under the permutation (only the ids may differ). -/
theorem clusterColorsDbscan_single_link (samples : List SampleC) (eps : ℚ) (i j : ℕ)
    (hi : i < samples.length) (hj : j < samples.length) :
    (((clusterColorsDbscan samples eps).labels.getD i (-1) =
       (clusterColorsDbscan samples eps).labels.getD j (-1)) ↔
      LabConn samples eps i j) ∧
    (∀ (k : Int) (c : ClusterC),
      List.lookup k (clusterColorsDbscan samples eps).clusterInfo = some c →
      c.count = (membersOf samples.length
        (clusterColorsDbscan samples eps).labels k).length ∧
      c.center_bgr = meanT ((membersOf samples.length
        (clusterColorsDbscan samples eps).labels k).map
        fun idx => (samples.getD idx default).bgr) ∧
      c.center_lab = meanT ((membersOf samples.length
        (clusterColorsDbscan samples eps).labels k).map
        fun idx => (samples.getD idx default).lab)) ∧
    (∀ σ : Equiv.Perm (Fin samples.length),
      ((clusterColorsDbscan (List.ofFn fun m => samples.get (σ m)) eps).labels.getD
          i (-1) =
       (clusterColorsDbscan (List.ofFn fun m => samples.get (σ m)) eps).labels.getD
          j (-1)) ↔
      ((clusterColorsDbscan samples eps).labels.getD
          ((σ ⟨i, hi⟩ : Fin samples.length) : ℕ) (-1) =
       (clusterColorsDbscan samples eps).labels.getD
          ((σ ⟨j, hj⟩ : Fin samples.length) : ℕ) (-1))) := by
  have hn : samples.length ≠ 0 := by omega
  refine ⟨dbscan_single_link samples eps i j hi hj, ?_, ?_⟩
  · intro k c hkc
    have hres : (clusterColorsDbscan samples eps).labels =
        (assignLabels (samples.map (·.lab)) eps (List.range samples.length) 0
          (List.replicate samples.length (-1))).1 := by
      unfold clusterColorsDbscan
      rw [if_neg hn]
    have hinfo : (clusterColorsDbscan samples eps).clusterInfo =
        buildClusterInfo samples
          (assignLabels (samples.map (·.lab)) eps (List.range samples.length) 0
            (List.replicate samples.length (-1))).1
          (assignLabels (samples.map (·.lab)) eps (List.range samples.length) 0
            (List.replicate samples.length (-1))).2 := by
      unfold clusterColorsDbscan
      rw [if_neg hn]
    rw [hinfo] at hkc
    have := lookup_buildClusterInfo_eq samples _ _ k c hkc
    rw [← hres] at this
    exact this
  · intro σ
    have hlen : (List.ofFn fun m => samples.get (σ m)).length = samples.length :=
      List.length_ofFn _
    have hi' : i < (List.ofFn fun m => samples.get (σ m)).length := by
      rw [hlen]; exact hi
    have hj' : j < (List.ofFn fun m => samples.get (σ m)).length := by
      rw [hlen]; exact hj
    rw [dbscan_single_link _ eps i j hi' hj',
      dbscan_single_link samples eps _ _ (σ ⟨i, hi⟩).isLt (σ ⟨j, hj⟩).isLt]
    exact labConn_perm samples eps σ i j hi hj

/-- Witness for C5 at the one-sample list, `eps = 0`, `i = j = 0`. -/
theorem clusterColorsDbscan_single_link_witness :
    (0 : ℕ) < [(default : SampleC)].length ∧
    ((((clusterColorsDbscan [(default : SampleC)] 0).labels.getD 0 (-1) =
        (clusterColorsDbscan [(default : SampleC)] 0).labels.getD 0 (-1)) ↔
       LabConn [(default : SampleC)] 0 0 0) ∧
     (∀ (k : Int) (c : ClusterC),
       List.lookup k (clusterColorsDbscan [(default : SampleC)] 0).clusterInfo =
         some c →
       c.count = (membersOf [(default : SampleC)].length
         (clusterColorsDbscan [(default : SampleC)] 0).labels k).length ∧
       c.center_bgr = meanT ((membersOf [(default : SampleC)].length
         (clusterColorsDbscan [(default : SampleC)] 0).labels k).map
         fun idx => ([(default : SampleC)].getD idx default).bgr) ∧
       c.center_lab = meanT ((membersOf [(default : SampleC)].length
         (clusterColorsDbscan [(default : SampleC)] 0).labels k).map
         fun idx => ([(default : SampleC)].getD idx default).lab)) ∧
     (∀ σ : Equiv.Perm (Fin [(default : SampleC)].length),
       ((clusterColorsDbscan
           (List.ofFn fun m => [(default : SampleC)].get (σ m)) 0).labels.getD
           0 (-1) =
        (clusterColorsDbscan
           (List.ofFn fun m => [(default : SampleC)].get (σ m)) 0).labels.getD
           0 (-1)) ↔
       ((clusterColorsDbscan [(default : SampleC)] 0).labels.getD
           ((σ ⟨0, by decide⟩ : Fin [(default : SampleC)].length) : ℕ) (-1) =
        (clusterColorsDbscan [(default : SampleC)] 0).labels.getD
           ((σ ⟨0, by decide⟩ : Fin [(default : SampleC)].length) : ℕ) (-1)))) :=
  ⟨by decide,
    clusterColorsDbscan_single_link [(default : SampleC)] 0 0 0 (by decide) (by decide)⟩

/-- `runMoves` over a sequence with one appended move: run the prefix,
then attempt the last move. -/
theorem runMoves_snoc (cap : ℕ) (blocked : List ℕ) :
    ∀ (ms : List MoveT) (b0 : List (List ℕ)) (m : MoveT),
      runMoves cap blocked b0 (ms ++ [m]) =
        (runMoves cap blocked b0 ms).bind
          (fun b' => if m ∈ legalMoves cap blocked b' then some (applyMove b' m)
            else none) := by
  intro ms
  induction ms with
  | nil =>
    intro b0 m
    show runMoves cap blocked b0 [m] = _
    by_cases h : m ∈ legalMoves cap blocked b0
    · show (if m ∈ legalMoves cap blocked b0 then _ else none) = _
      rw [if_pos h]
      show some (applyMove b0 m) = (some b0).bind _
      rw [Option.some_bind]
      rw [if_pos h]
    · show (if m ∈ legalMoves cap blocked b0 then _ else none) = _
      rw [if_neg h]
      show none = (some b0).bind _
      rw [Option.some_bind]
      rw [if_neg h]
  | cons m0 rest ih =>
    intro b0 m
    show (if m0 ∈ legalMoves cap blocked b0
        then runMoves cap blocked (applyMove b0 m0) (rest ++ [m]) else none) = _
    by_cases h : m0 ∈ legalMoves cap blocked b0
    · rw [if_pos h, ih]
      show _ = (if m0 ∈ legalMoves cap blocked b0
        then runMoves cap blocked (applyMove b0 m0) rest else none).bind _
      rw [if_pos h]
    · rw [if_neg h]
      show _ = (if m0 ∈ legalMoves cap blocked b0
        then runMoves cap blocked (applyMove b0 m0) rest else none).bind _
      rw [if_neg h]
      rfl

/-- `pruneNew` keeps only nodes of its input batch. -/
theorem pruneNew_sublist (nd : BfsNode) :
    ∀ (visited : List (List (List ℕ))) (l : List BfsNode),
      nd ∈ pruneNew visited l → nd ∈ l := by
  intro visited l
  induction l generalizing visited with
  | nil => intro h; exact absurd h (List.not_mem_nil nd)
  | cons x rest ih =>
    intro h
    unfold pruneNew at h
    by_cases hx : x.board ∈ visited
    · rw [if_pos hx] at h
      exact List.mem_cons_of_mem _ (ih visited h)
    · rw [if_neg hx] at h
      rcases List.mem_cons.mp h with rfl | h2
      · exact List.mem_cons_self _ _
      · exact List.mem_cons_of_mem _ (ih (x.board :: visited) h2)

/-- Every board of the input batch is either already visited or appears
among the boards `pruneNew` keeps. -/
theorem pruneNew_covers (b : List (List ℕ)) :
    ∀ (visited : List (List (List ℕ))) (l : List BfsNode),
      b ∈ l.map BfsNode.board →
      b ∈ visited ∨ b ∈ (pruneNew visited l).map BfsNode.board := by
  intro visited l
  induction l generalizing visited with
  | nil => intro h; exact absurd h (by simp)
  | cons x rest ih =>
    intro h
    unfold pruneNew
    rcases List.mem_cons.mp h with heq | h2
    · by_cases hx : x.board ∈ visited
      · rw [if_pos hx]
        exact Or.inl (heq ▸ hx)
      · rw [if_neg hx]
        exact Or.inr (by rw [List.map_cons]; exact List.mem_cons.mpr (Or.inl heq))
    · by_cases hx : x.board ∈ visited
      · rw [if_pos hx]
        exact ih visited h2
      · rw [if_neg hx]
        rcases ih (x.board :: visited) h2 with h3 | h3
        · rcases List.mem_cons.mp h3 with heq | h4
          · exact Or.inr (by rw [List.map_cons]; exact List.mem_cons.mpr (Or.inl heq))
          · exact Or.inl h4
        · exact Or.inr (by rw [List.map_cons]; exact List.mem_cons.mpr (Or.inr h3))

/-- Level-BFS invariant theorem: from a frontier of sound depth-`k` nodes,
a visited set holding exactly the boards reachable in at most `k` moves
(each either on the frontier or reachable strictly earlier), with no goal
reachable in fewer than `k` moves, any path the search returns solves the
initial board and is shortest among all legal solutions. -/
theorem bfsLoop_spec (cap : ℕ) (blocked : List ℕ) (init : List (List ℕ)) :
    ∀ (fuel : ℕ) (frontier : List BfsNode) (visited : List (List (List ℕ))) (k : ℕ),
      (∀ nd ∈ frontier, runMoves cap blocked init nd.path = some nd.board ∧
        nd.path.length = k) →
      (∀ b, (∃ j, j ≤ k ∧ ReachableIn cap blocked init j b) ↔ b ∈ visited) →
      (∀ b ∈ visited, b ∈ frontier.map BfsNode.board ∨
        ∃ j, j < k ∧ ReachableIn cap blocked init j b) →
      (∀ j, j < k → ∀ b, ReachableIn cap blocked init j b → isGoal b = false) →
      ∀ p, bfsLoop cap blocked fuel frontier visited = some p →
        SolvesIn cap blocked init p ∧
        ∀ ms, SolvesIn cap blocked init ms → p.length ≤ ms.length := by
  intro fuel
  induction fuel with
  | zero =>
    intro frontier visited k hA hB hD hE p hp
    cases frontier with
    | nil => exact Option.noConfusion hp
    | cons nd rest => exact Option.noConfusion hp
  | succ fuel ih =>
    intro frontier visited k hA hB hD hE p hp
    cases frontier with
    | nil => exact Option.noConfusion hp
    | cons nd rest =>
      have hstep : bfsLoop cap blocked (fuel + 1) (nd :: rest) visited =
          match (nd :: rest).find? (fun x => isGoal x.board) with
          | some x => some x.path
          | none =>
            bfsLoop cap blocked fuel
              (pruneNew visited ((nd :: rest).flatMap (expandNode cap blocked)))
              (visited ++ (pruneNew visited
                ((nd :: rest).flatMap (expandNode cap blocked))).map (·.board)) := rfl
      rw [hstep] at hp
      cases hfind : (nd :: rest).find? (fun x => isGoal x.board) with
      | some x =>
        rw [hfind] at hp
        dsimp only at hp
        have hpx : x.path = p := Option.some.inj hp
        have hmem := List.mem_of_find?_eq_some hfind
        have hgoal : isGoal x.board = true := by
          have := List.find?_some hfind
          simpa using this
        obtain ⟨hrun, hlen⟩ := hA x hmem
        constructor
        · exact ⟨x.board, by rw [← hpx]; exact hrun, hgoal⟩
        · rintro ms ⟨b, hrms, hgb⟩
          by_contra hlt
          push_neg at hlt
          rw [← hpx, hlen] at hlt
          have := hE ms.length hlt b ⟨ms, rfl, hrms⟩
          rw [this] at hgb
          exact Bool.noConfusion hgb
      | none =>
        rw [hfind] at hp
        dsimp only at hp
        have hNoGoal : ∀ x ∈ nd :: rest, isGoal x.board = false := by
          intro x hx
          have := List.find?_eq_none.mp hfind x hx
          simpa using this
        have hA' : ∀ y ∈ pruneNew visited
            ((nd :: rest).flatMap (expandNode cap blocked)),
            runMoves cap blocked init y.path = some y.board ∧
            y.path.length = k + 1 := by
          intro y hy
          have hyX := pruneNew_sublist y visited _ hy
          obtain ⟨x, hxF, hyx⟩ := List.mem_flatMap.mp hyX
          obtain ⟨m, hm, hym⟩ := List.mem_map.mp hyx
          obtain ⟨hrun, hlen⟩ := hA x hxF
          rw [← hym]
          dsimp only
          constructor
          · rw [runMoves_snoc, hrun, Option.some_bind, if_pos hm]
          · rw [List.length_append, hlen, List.length_singleton]
        have hB' : ∀ b, (∃ j, j ≤ k + 1 ∧ ReachableIn cap blocked init j b) ↔
            b ∈ visited ++ (pruneNew visited
              ((nd :: rest).flatMap (expandNode cap blocked))).map (·.board) := by
          intro b
          constructor
          · rintro ⟨j, hj, ms, hlenms, hrun⟩
            by_cases hjk : j ≤ k
            · exact List.mem_append_left _ ((hB b).mp ⟨j, hjk, ms, hlenms, hrun⟩)
            · have hj1 : j = k + 1 := by omega
              rcases List.eq_nil_or_concat ms with rfl | ⟨ms', m, rfl⟩
              · rw [hj1] at hlenms
                exact absurd hlenms (by simp)
              · rw [List.concat_eq_append, runMoves_snoc] at hrun
                cases hrun' : runMoves cap blocked init ms' with
                | none =>
                  rw [hrun'] at hrun
                  exact Option.noConfusion hrun
                | some b' =>
                  rw [hrun', Option.some_bind] at hrun
                  by_cases hm : m ∈ legalMoves cap blocked b'
                  · rw [if_pos hm] at hrun
                    have hb : applyMove b' m = b := Option.some.inj hrun
                    have hlen' : ms'.length = k := by
                      rw [List.concat_eq_append, List.length_append,
                        List.length_singleton, hj1] at hlenms
                      omega
                    have hbv : b' ∈ visited :=
                      (hB b').mp ⟨k, le_refl k, ms', hlen', hrun'⟩
                    rcases hD b' hbv with hbf | ⟨j', hj', hr'⟩
                    · obtain ⟨x, hxF, hxb⟩ := List.mem_map.mp hbf
                      have hyX : (⟨applyMove x.board m, x.path ++ [m]⟩ : BfsNode) ∈
                          (nd :: rest).flatMap (expandNode cap blocked) := by
                        refine List.mem_flatMap.mpr ⟨x, hxF, ?_⟩
                        refine List.mem_map.mpr ⟨m, ?_, rfl⟩
                        rw [hxb]
                        exact hm
                      have hbX : b ∈ ((nd :: rest).flatMap
                          (expandNode cap blocked)).map BfsNode.board := by
                        refine List.mem_map.mpr
                          ⟨⟨applyMove x.board m, x.path ++ [m]⟩, hyX, ?_⟩
                        dsimp only
                        rw [hxb, hb]
                      rcases pruneNew_covers b visited _ hbX with h1 | h1
                      · exact List.mem_append_left _ h1
                      · exact List.mem_append_right _ h1
                    · have hrb : ReachableIn cap blocked init (j' + 1) b := by
                        obtain ⟨ms'', hlen'', hrun''⟩ := hr'
                        exact ⟨ms'' ++ [m],
                          by rw [List.length_append, hlen'', List.length_singleton],
                          by rw [runMoves_snoc, hrun'', Option.some_bind,
                            if_pos hm, hb]⟩
                      exact List.mem_append_left _ ((hB b).mp ⟨j' + 1, by omega, hrb⟩)
                  · rw [if_neg hm] at hrun
                    exact Option.noConfusion hrun
          · intro hbv
            rcases List.mem_append.mp hbv with h1 | h1
            · obtain ⟨j, hj, hr⟩ := (hB b).mpr h1
              exact ⟨j, by omega, hr⟩
            · obtain ⟨y, hy, hyb⟩ := List.mem_map.mp h1
              obtain ⟨hrun, hlenp⟩ := hA' y hy
              exact ⟨k + 1, le_refl _, y.path, hlenp, by rw [← hyb]; exact hrun⟩
        have hD' : ∀ b ∈ visited ++ (pruneNew visited
              ((nd :: rest).flatMap (expandNode cap blocked))).map (·.board),
            b ∈ (pruneNew visited
              ((nd :: rest).flatMap (expandNode cap blocked))).map BfsNode.board ∨
            ∃ j, j < k + 1 ∧ ReachableIn cap blocked init j b := by
          intro b hbv
          rcases List.mem_append.mp hbv with h1 | h1
          · obtain ⟨j, hj, hr⟩ := (hB b).mpr h1
            exact Or.inr ⟨j, by omega, hr⟩
          · exact Or.inl h1
        have hE' : ∀ j, j < k + 1 → ∀ b, ReachableIn cap blocked init j b →
            isGoal b = false := by
          intro j hj b hr
          by_cases hjk : j < k
          · exact hE j hjk b hr
          · have hjek : j = k := by omega
            rw [hjek] at hr
            have hbv : b ∈ visited := (hB b).mp ⟨k, le_refl k, hr⟩
            rcases hD b hbv with hbf | ⟨j', hj', hr'⟩
            · obtain ⟨x, hxF, hxb⟩ := List.mem_map.mp hbf
              rw [← hxb]
              exact hNoGoal x hxF
            · exact hE j' hj' b hr'
        exact ih (pruneNew visited ((nd :: rest).flatMap (expandNode cap blocked)))
          (visited ++ (pruneNew visited
            ((nd :: rest).flatMap (expandNode cap blocked))).map (·.board))
          (k + 1) hA' hB' hD' hE' p hp

/-- C4: whenever `solveBfs` reports solved, the returned move list is a
legal solution of the initial board, and it is shortest by move count: no
legal move sequence of strictly smaller length reaches the goal (the
level-wise goal check returns at the first goal state found, so the path
has minimal depth). -/
theorem solveBfs_shortest (init : List (List ℕ)) (cap : ℕ) (blocked : List ℕ)
    (maxStates : ℕ) (h : (solveBfs init cap blocked maxStates).solved = true) :
    SolvesIn cap blocked init (solveBfs init cap blocked maxStates).moves ∧
    ∀ ms, SolvesIn cap blocked init ms →
      (solveBfs init cap blocked maxStates).moves.length ≤ ms.length := by
  cases hb : bfsLoop cap blocked maxStates [⟨init, []⟩] [init] with
  | none =>
    unfold solveBfs at h
    rw [hb] at h
    dsimp only at h
    exact Bool.noConfusion h
  | some p =>
    have hmv : (solveBfs init cap blocked maxStates).moves = p := by
      unfold solveBfs
      rw [hb]
    rw [hmv]
    refine bfsLoop_spec cap blocked init maxStates [⟨init, []⟩] [init] 0
      ?_ ?_ ?_ ?_ p hb
    · intro x hx
      have hx' : x = ⟨init, []⟩ := by
        rcases List.mem_cons.mp hx with h1 | h1
        · exact h1
        · exact absurd h1 (List.not_mem_nil x)
      rw [hx']
      exact ⟨rfl, rfl⟩
    · intro b
      constructor
      · rintro ⟨j, hj, ms, hlenms, hrun⟩
        have hj0 : j = 0 := by omega
        rw [hj0] at hlenms
        have hms : ms = [] := List.length_eq_zero.mp hlenms
        rw [hms] at hrun
        have : init = b := Option.some.inj hrun
        rw [← this]
        exact List.mem_cons_self _ _
      · intro hbv
        have hb' : b = init := by
          rcases List.mem_cons.mp hbv with h1 | h1
          · exact h1
          · exact absurd h1 (List.not_mem_nil b)
        exact ⟨0, le_refl 0, [], rfl, by rw [hb']; rfl⟩
    · intro b hbv
      have hb' : b = init := by
        rcases List.mem_cons.mp hbv with h1 | h1
        · exact h1
        · exact absurd h1 (List.not_mem_nil b)
      refine Or.inl ?_
      rw [List.map_cons]
      exact List.mem_cons.mpr (Or.inl hb')
    · intro j hj
      exact absurd hj (by omega)

/-- Witness for C4 at the trivially solved empty board. -/
theorem solveBfs_shortest_witness :
    (solveBfs [] 4 [] 1).solved = true ∧
    (SolvesIn 4 [] [] (solveBfs [] 4 [] 1).moves ∧
     ∀ ms, SolvesIn 4 [] [] ms → (solveBfs [] 4 [] 1).moves.length ≤ ms.length) :=
  ⟨by decide, solveBfs_shortest [] 4 [] 1 (by decide)⟩

/-- `clampInt` lands in `[lo, hi]` whenever the interval is nonempty. -/
theorem clampInt_bounds {v lo hi : Int} (h : lo ≤ hi) :
    lo ≤ clampInt v lo hi ∧ clampInt v lo hi ≤ hi :=
  ⟨le_max_left _ _, max_le h (min_le_left _ _)⟩

/-- Per-index value of the grid normalizer's output: the greedy
assignment's box if present, otherwise the probe's, otherwise the
synthetic fallback — rounded and clamped. -/
theorem enforceFixedBottleGrid_getD (Wi Hi : Int) (candidates : List BoxQ)
    (probe : ℚ → ℚ → ℚ → ℚ → Option BoxQ) (pi : ℕ) (hpi : pi < 6) :
    (enforceFixedBottleGrid Wi Hi candidates probe).getD pi ⟨0, 0, 0, 0⟩ =
      finalClampBox Wi Hi
        (((gridProbed (Wi : ℚ) (Hi : ℚ) candidates probe).getD pi none).getD
          (syntheticBoxAt Wi Hi (gridWMed (Wi : ℚ) (Hi : ℚ) candidates)
            (gridHMed (Wi : ℚ) (Hi : ℚ) candidates)
            ((gridPreds (Wi : ℚ) (Hi : ℚ) candidates).getD pi (0, 0)))) := by
  unfold enforceFixedBottleGrid
  rw [List.getD_eq_getElem _ _
    (by rw [List.length_map, List.length_map, List.length_range]; exact hpi)]
  rw [List.getElem_map, List.getElem_map, List.getElem_range]
  cases hX : (gridProbed (Wi : ℚ) (Hi : ℚ) candidates probe).getD pi none with
  | some b => rfl
  | none => rfl

/-- C3: for every candidate list (including the empty one) the grid
normalizer returns exactly 6 boxes — the fixed 3×2 grid — each clamped
inside the image bounds; the predicted cells are laid out row-major
(prediction `pi` is column `pi % 3` of the ascending column centers and
row `pi / 3` of the ascending row centers); and when a predicted cell got
no greedy assignment and the local re-detection probe yields nothing, the
output at that cell is the synthetic median-sized box centered at the
predicted cell — so normalization never fails. -/
theorem enforceFixedBottleGrid_total (Wi Hi : Int) (candidates : List BoxQ)
    (probe : ℚ → ℚ → ℚ → ℚ → Option BoxQ) (hW : 1 ≤ Wi) (hH : 1 ≤ Hi) :
    (enforceFixedBottleGrid Wi Hi candidates probe).length = 6 ∧
    (∀ r ∈ enforceFixedBottleGrid Wi Hi candidates probe,
      0 ≤ r.x ∧ r.x ≤ Wi - 1 ∧ 0 ≤ r.y ∧ r.y ≤ Hi - 1 ∧
      1 ≤ r.w ∧ r.w ≤ Wi ∧ 1 ≤ r.h ∧ r.h ≤ Hi) ∧
    List.Sorted (· ≤ ·) (gridXCenters (Wi : ℚ) (Hi : ℚ) candidates) ∧
    List.Sorted (· ≤ ·) (gridYCenters (Wi : ℚ) (Hi : ℚ) candidates) ∧
    (∀ pi, pi < 6 → (gridPreds (Wi : ℚ) (Hi : ℚ) candidates).getD pi (0, 0) =
      ((gridXCenters (Wi : ℚ) (Hi : ℚ) candidates).getD (pi % 3) 0,
       (gridYCenters (Wi : ℚ) (Hi : ℚ) candidates).getD (pi / 3) 0)) ∧
    (∀ pi, pi < 6 →
      (gridAssign (Wi : ℚ) (Hi : ℚ) candidates).getD pi none = none →
      probe ((gridPreds (Wi : ℚ) (Hi : ℚ) candidates).getD pi (0, 0)).1
        ((gridPreds (Wi : ℚ) (Hi : ℚ) candidates).getD pi (0, 0)).2
        (gridWMed (Wi : ℚ) (Hi : ℚ) candidates)
        (gridHMed (Wi : ℚ) (Hi : ℚ) candidates) = none →
      (enforceFixedBottleGrid Wi Hi candidates probe).getD pi ⟨0, 0, 0, 0⟩ =
        finalClampBox Wi Hi (syntheticBoxAt Wi Hi
          (gridWMed (Wi : ℚ) (Hi : ℚ) candidates)
          (gridHMed (Wi : ℚ) (Hi : ℚ) candidates)
          ((gridPreds (Wi : ℚ) (Hi : ℚ) candidates).getD pi (0, 0)))) := by
  refine ⟨?_, ?_, ?_, ?_, ?_, ?_⟩
  · unfold enforceFixedBottleGrid
    rw [List.length_map, List.length_map, List.length_range]
  · intro r hr
    unfold enforceFixedBottleGrid at hr
    obtain ⟨b, hb, hrb⟩ := List.mem_map.mp hr
    rw [← hrb]
    exact ⟨(clampInt_bounds (show (0 : Int) ≤ Wi - 1 by omega)).1,
      (clampInt_bounds (show (0 : Int) ≤ Wi - 1 by omega)).2,
      (clampInt_bounds (show (0 : Int) ≤ Hi - 1 by omega)).1,
      (clampInt_bounds (show (0 : Int) ≤ Hi - 1 by omega)).2,
      (clampInt_bounds (show (1 : Int) ≤ Wi by omega)).1,
      (clampInt_bounds (show (1 : Int) ≤ Wi by omega)).2,
      (clampInt_bounds (show (1 : Int) ≤ Hi by omega)).1,
      (clampInt_bounds (show (1 : Int) ≤ Hi by omega)).2⟩
  · unfold gridXCenters
    exact List.sorted_insertionSort _ _
  · unfold gridYCenters
    exact List.sorted_insertionSort _ _
  · intro pi hpi
    unfold gridPreds
    rw [List.getD_eq_getElem _ _
      (by rw [List.length_map, List.length_range]; exact hpi)]
    rw [List.getElem_map, List.getElem_range]
  · intro pi hpi hassign hprobe
    have hprob : (gridProbed (Wi : ℚ) (Hi : ℚ) candidates probe).getD pi none =
        none := by
      unfold gridProbed
      rw [List.getD_eq_getElem _ _
        (by rw [List.length_map, List.length_range]; exact hpi)]
      rw [List.getElem_map, List.getElem_range]
      rw [hassign]
      exact hprobe
    rw [enforceFixedBottleGrid_getD Wi Hi candidates probe pi hpi, hprob]
    rfl

/-- Witness for C3 at a 100×100 image, no candidates, and a probe that
always fails. -/
theorem enforceFixedBottleGrid_total_witness :
    (1 : Int) ≤ 100 ∧ (1 : Int) ≤ 100 ∧
    ((enforceFixedBottleGrid 100 100 [] (fun _ _ _ _ => none)).length = 6 ∧
     (∀ r ∈ enforceFixedBottleGrid 100 100 [] (fun _ _ _ _ => none),
       0 ≤ r.x ∧ r.x ≤ 100 - 1 ∧ 0 ≤ r.y ∧ r.y ≤ 100 - 1 ∧
       1 ≤ r.w ∧ r.w ≤ 100 ∧ 1 ≤ r.h ∧ r.h ≤ 100) ∧
     List.Sorted (· ≤ ·) (gridXCenters ((100 : Int) : ℚ) ((100 : Int) : ℚ) []) ∧
     List.Sorted (· ≤ ·) (gridYCenters ((100 : Int) : ℚ) ((100 : Int) : ℚ) []) ∧
     (∀ pi, pi < 6 →
       (gridPreds ((100 : Int) : ℚ) ((100 : Int) : ℚ) []).getD pi (0, 0) =
       ((gridXCenters ((100 : Int) : ℚ) ((100 : Int) : ℚ) []).getD (pi % 3) 0,
        (gridYCenters ((100 : Int) : ℚ) ((100 : Int) : ℚ) []).getD (pi / 3) 0)) ∧
     (∀ pi, pi < 6 →
       (gridAssign ((100 : Int) : ℚ) ((100 : Int) : ℚ) []).getD pi none = none →
       (fun _ _ _ _ => (none : Option BoxQ))
         ((gridPreds ((100 : Int) : ℚ) ((100 : Int) : ℚ) []).getD pi (0, 0)).1
         ((gridPreds ((100 : Int) : ℚ) ((100 : Int) : ℚ) []).getD pi (0, 0)).2
         (gridWMed ((100 : Int) : ℚ) ((100 : Int) : ℚ) [])
         (gridHMed ((100 : Int) : ℚ) ((100 : Int) : ℚ) []) = none →
       (enforceFixedBottleGrid 100 100 [] (fun _ _ _ _ => none)).getD pi
           ⟨0, 0, 0, 0⟩ =
         finalClampBox 100 100 (syntheticBoxAt 100 100
           (gridWMed ((100 : Int) : ℚ) ((100 : Int) : ℚ) [])
           (gridHMed ((100 : Int) : ℚ) ((100 : Int) : ℚ) [])
           ((gridPreds ((100 : Int) : ℚ) ((100 : Int) : ℚ) []).getD pi (0, 0))))) :=
  ⟨by decide, by decide,
    enforceFixedBottleGrid_total 100 100 [] (fun _ _ _ _ => none)
      (by decide) (by decide)⟩
